import Mathlib

/-!
# LevelDB `Arena` (util/arena.h, util/arena.cc)

A shallow embedding of the bump allocator on an LP64 platform:

* `size_t` values are natural numbers below `sizeMod = 2 ^ 64`; every `size_t`
  addition and subtraction of the source is written with the wrap-around made
  explicit (`sizeAdd`, `sizeSub`).
* `char*` values are addresses, natural numbers; `nullptr` is `0`.
* `new char[n]` is the memory provider.  Each call of the public interface
  reaches `new` at most once, so every operation takes the address `fresh`
  that the provider hands back if it is asked.
* `blocks_` stores the block addresses; the embedding keeps next to each
  address the length that was passed to `new char[...]`.
* `assert` is checked: an operation whose assertion fails yields `none`.
* `Arena.branch`, `Arena.subtraction` and `Arena.current` observe a call: the branch its
  guards select, the `alloc_bytes_remaining_ -= ...` it executes, and the standard block
  acquired last along a run.
-/

namespace leveldb

/-- Number of values of `size_t` (64-bit). -/
def sizeMod : Nat := 2 ^ 64

/-- Addition of two `size_t` values. -/
def sizeAdd (x y : Nat) : Nat := (x + y) % sizeMod

/-- Subtraction of two `size_t` values. -/
def sizeSub (x y : Nat) : Nat := (x + sizeMod - y) % sizeMod

/-- Source: `static const int kBlockSize = 4096;`. -/
def kBlockSize : Nat := 4096

/-- Source: `sizeof(void*)` and `sizeof(char*)` on LP64. -/
def sizeofPtr : Nat := 8

/-- Source: `const int align = (sizeof(void*) > 8) ? sizeof(void*) : 8;`. -/
def align : Nat := if sizeofPtr > 8 then sizeofPtr else 8

/-- One entry of `blocks_`: the address returned by `new char[size]`. -/
structure Block where
  base : Nat
  size : Nat
deriving DecidableEq, Repr

/-- The data members of `class Arena`. -/
structure Arena where
  alloc_ptr_ : Nat
  alloc_bytes_remaining_ : Nat
  blocks_ : List Block
  memory_usage_ : Nat
deriving DecidableEq, Repr

/-- Source: `Arena::Arena()`. -/
def Arena.new : Arena :=
  { alloc_ptr_ := 0, alloc_bytes_remaining_ := 0, blocks_ := [], memory_usage_ := 0 }

/-- Source: `Arena::MemoryUsage`. -/
def Arena.MemoryUsage (a : Arena) : Nat := a.memory_usage_

/-- Source: `Arena::AllocateNewBlock`; `fresh` is the result of `new char[block_bytes]`. -/
def Arena.AllocateNewBlock (a : Arena) (block_bytes fresh : Nat) : Nat × Arena :=
  (fresh,
    { a with
      blocks_ := a.blocks_ ++ [{ base := fresh, size := block_bytes }]
      memory_usage_ := sizeAdd a.memory_usage_ (sizeAdd block_bytes sizeofPtr) })

/-- Source: `Arena::AllocateFallback`. -/
def Arena.AllocateFallback (a : Arena) (bytes fresh : Nat) : Nat × Arena :=
  if bytes > kBlockSize / 4 then
    a.AllocateNewBlock bytes fresh
  else
    let nb := a.AllocateNewBlock kBlockSize fresh
    let a1 : Arena := { nb.2 with alloc_ptr_ := nb.1, alloc_bytes_remaining_ := kBlockSize }
    (a1.alloc_ptr_,
      { a1 with
        alloc_ptr_ := a1.alloc_ptr_ + bytes
        alloc_bytes_remaining_ := sizeSub a1.alloc_bytes_remaining_ bytes })

/-- Source: `Arena::Allocate`. -/
def Arena.Allocate (a : Arena) (bytes fresh : Nat) : Option (Nat × Arena) :=
  if bytes > 0 then
    if bytes ≤ a.alloc_bytes_remaining_ then
      some (a.alloc_ptr_,
        { a with
          alloc_ptr_ := a.alloc_ptr_ + bytes
          alloc_bytes_remaining_ := sizeSub a.alloc_bytes_remaining_ bytes })
    else
      some (a.AllocateFallback bytes fresh)
  else
    none

/-- Source: `Arena::AllocateAligned`. -/
def Arena.AllocateAligned (a : Arena) (bytes fresh : Nat) : Option (Nat × Arena) :=
  let current_mod := a.alloc_ptr_ &&& (align - 1)
  let slop := if current_mod = 0 then 0 else sizeSub align current_mod
  let needed := sizeAdd bytes slop
  let res : Nat × Arena :=
    if needed ≤ a.alloc_bytes_remaining_ then
      (a.alloc_ptr_ + slop,
        { a with
          alloc_ptr_ := a.alloc_ptr_ + needed
          alloc_bytes_remaining_ := sizeSub a.alloc_bytes_remaining_ needed })
    else
      a.AllocateFallback bytes fresh
  if res.1 &&& (align - 1) = 0 then some res else none

/-- One call of the public interface: which entry point, the `bytes` argument, and the
address the provider hands back if the call reaches `new`. -/
structure Call where
  aligned : Bool
  bytes : Nat
  fresh : Nat
deriving DecidableEq, Repr

/-- A range handed out to the caller: `bytes` bytes starting at `addr`. -/
structure Grant where
  addr : Nat
  bytes : Nat
deriving DecidableEq, Repr

/-- Dispatch of one call to `Allocate` or `AllocateAligned`. -/
def Arena.call (a : Arena) (c : Call) : Option (Nat × Arena) :=
  if c.aligned then a.AllocateAligned c.bytes c.fresh else a.Allocate c.bytes c.fresh

/-- Run a sequence of calls, collecting the returned ranges in call order.  A failed
assertion stops the program: the run yields `none`. -/
def Arena.run : List Grant × Arena → List Call → Option (List Grant × Arena)
  | s, [] => some s
  | s, c :: cs =>
    match s.2.call c with
    | none => none
    | some (r, a') => Arena.run (s.1 ++ [{ addr := r, bytes := c.bytes }], a') cs

/-- States reachable from a new Arena by a sequence of calls. -/
def Arena.Reachable (a : Arena) : Prop :=
  ∃ cs gs, Arena.run ([], Arena.new) cs = some (gs, a)

/-- The range `g` lies inside the block `b`. -/
def Grant.Inside (g : Grant) (b : Block) : Prop :=
  b.base ≤ g.addr ∧ g.addr + g.bytes ≤ b.base + b.size

/-- The ranges `g` and `h` share a byte. -/
def Grant.Overlaps (g h : Grant) : Prop :=
  g.addr < h.addr + h.bytes ∧ h.addr < g.addr + g.bytes

/-- The blocks `b` and `c` share no byte. -/
def Block.Disjoint (b c : Block) : Prop :=
  b.base + b.size ≤ c.base ∨ c.base + c.size ≤ b.base

instance (g : Grant) (b : Block) : Decidable (g.Inside b) := by
  unfold Grant.Inside; infer_instance

instance (g h : Grant) : Decidable (g.Overlaps h) := by
  unfold Grant.Overlaps; infer_instance

instance (b c : Block) : Decidable (b.Disjoint c) := by
  unfold Block.Disjoint; infer_instance

/-- Sum of `size + sizeof(char*)` over a block list. -/
def reservedBytes (bs : List Block) : Nat :=
  (bs.map fun b => b.size + sizeofPtr).sum

/-- Sum of the sizes of a block list. -/
def blockBytes (bs : List Block) : Nat :=
  (bs.map Block.size).sum

/-- Sum of the `bytes` arguments of a sequence of calls. -/
def requestedBytes (cs : List Call) : Nat :=
  (cs.map Call.bytes).sum

/-- Sum of the lengths of a list of returned ranges. -/
def grantedBytes (gs : List Grant) : Nat :=
  (gs.map Grant.bytes).sum

/-- Byte accounting along a run: the free region is at most one standard block, and the
bytes handed out plus the free bytes never exceed the bytes obtained from the provider. -/
def Accounted (s : List Grant × Arena) : Prop :=
  s.2.alloc_bytes_remaining_ ≤ 4096 ∧
    grantedBytes s.1 + s.2.alloc_bytes_remaining_ ≤ blockBytes s.2.blocks_

/-- The counter `memory_usage_` follows the block list, modulo `2 ^ 64`. -/
def UsageTracksBlocks (a : Arena) : Prop :=
  a.memory_usage_ = reservedBytes a.blocks_ % 2 ^ 64

/-- The free region `[alloc_ptr_, alloc_ptr_ + alloc_bytes_remaining_)` is empty at the null
cursor, or it is the tail of a standard block of the Arena. -/
def Anchored (a : Arena) : Prop :=
  (a.alloc_ptr_ = 0 ∧ a.alloc_bytes_remaining_ = 0) ∨
    ∃ b ∈ a.blocks_, b.size = 4096 ∧ b.base ≤ a.alloc_ptr_ ∧
      a.alloc_ptr_ + a.alloc_bytes_remaining_ = b.base + 4096

/-- Every returned range lies inside a block of the Arena, and the free region is anchored. -/
def Placed (s : List Grant × Arena) : Prop :=
  Anchored s.2 ∧ ∀ g ∈ s.1, ∃ b ∈ s.2.blocks_, g.Inside b

/-- No returned range reaches into the free region, and no two returned ranges overlap. -/
def Separated (s : List Grant × Arena) : Prop :=
  (∀ g ∈ s.1, g.addr + g.bytes ≤ s.2.alloc_ptr_ ∨
      s.2.alloc_ptr_ + s.2.alloc_bytes_remaining_ ≤ g.addr) ∧
    s.1.Pairwise fun g h => ¬ g.Overlaps h

/-- Requests for which no `size_t` sum in `AllocateAligned` wraps: at least one byte, and
for the aligned entry point `bytes + 7 < 2 ^ 64`. -/
def Call.Bounded (c : Call) : Prop :=
  1 ≤ c.bytes ∧ (c.aligned = true → c.bytes + 7 < 2 ^ 64)

instance (c : Call) : Decidable c.Bounded := by
  unfold Call.Bounded; infer_instance

/-- The three ways a call can be served: from the current block, from a dedicated block of
its own (`AllocateFallback`, request above `kBlockSize / 4`), or from a new standard block
(`AllocateFallback`, small request). -/
inductive Branch where
  | bump
  | dedicated
  | standard
deriving DecidableEq, Repr

/-- The guard that keeps a call on the bump path: `bytes <= alloc_bytes_remaining_` in
`Allocate`, `needed <= alloc_bytes_remaining_` in `AllocateAligned`. -/
def Arena.fits (a : Arena) (c : Call) : Bool :=
  if c.aligned then
    let current_mod := a.alloc_ptr_ &&& (align - 1)
    let slop := if current_mod = 0 then 0 else sizeSub align current_mod
    let needed := sizeAdd c.bytes slop
    decide (needed ≤ a.alloc_bytes_remaining_)
  else
    decide (c.bytes ≤ a.alloc_bytes_remaining_)

/-- The branch a call takes, read off the guards of `Allocate`, `AllocateAligned` and
`AllocateFallback`. -/
def Arena.branch (a : Arena) (c : Call) : Branch :=
  if a.fits c then Branch.bump
  else if c.bytes > kBlockSize / 4 then Branch.dedicated
  else Branch.standard

/-- The statement `alloc_bytes_remaining_ -= ...` that a call executes, as the pair (value
before the subtraction, amount subtracted): `-= bytes` in `Allocate`, `-= needed` in
`AllocateAligned`, `-= bytes` after `alloc_bytes_remaining_ = kBlockSize` in
`AllocateFallback`; the dedicated-block branch subtracts nothing. -/
def Arena.subtraction (a : Arena) (c : Call) : Option (Nat × Nat) :=
  match a.branch c with
  | Branch.bump =>
    if c.aligned then
      let current_mod := a.alloc_ptr_ &&& (align - 1)
      let slop := if current_mod = 0 then 0 else sizeSub align current_mod
      some (a.alloc_bytes_remaining_, sizeAdd c.bytes slop)
    else
      some (a.alloc_bytes_remaining_, c.bytes)
  | Branch.dedicated => none
  | Branch.standard => some (kBlockSize, c.bytes)

/-- The standard block most recently acquired by the small-request branch along a run that
starts in state `a` with `cur` as the block acquired so far (if any). -/
def Arena.current : Option Block → Arena → List Call → Option Block
  | cur, _, [] => cur
  | cur, a, c :: cs =>
    match a.call c with
    | none => cur
    | some (_, a') =>
      Arena.current
        (if a.branch c = Branch.standard then some { base := c.fresh, size := kBlockSize }
          else cur)
        a' cs

/-- The free region is empty at the null cursor while no standard block was acquired, and
otherwise it is the tail of the standard block `cur` acquired last. -/
def Tracked (cur : Option Block) (a : Arena) : Prop :=
  (cur = none ∧ a.alloc_ptr_ = 0 ∧ a.alloc_bytes_remaining_ = 0) ∨
    ∃ b, cur = some b ∧ b ∈ a.blocks_ ∧ b.size = 4096 ∧ b.base ≤ a.alloc_ptr_ ∧
      a.alloc_ptr_ + a.alloc_bytes_remaining_ = b.base + 4096

/-- The empty state of the Arena: null cursor, nothing remaining. -/
def Dormant (a : Arena) : Prop :=
  a.alloc_ptr_ = 0 ∧ a.alloc_bytes_remaining_ = 0

/-- The active state of the Arena: a non-null cursor inside, or at the end of, a standard
block of the Arena, with the free region reaching to the end of that block. -/
def Active (a : Arena) : Prop :=
  a.alloc_ptr_ ≠ 0 ∧
    ∃ b ∈ a.blocks_, b.size = 4096 ∧ b.base ≤ a.alloc_ptr_ ∧
      a.alloc_ptr_ + a.alloc_bytes_remaining_ = b.base + 4096

/-! ## Arithmetic of `size_t` and of the alignment mask -/

theorem align_eq : align = 8 := by decide

theorem land_seven (n : Nat) : n &&& 7 = n % 8 :=
  Nat.and_pow_two_sub_one_eq_mod n 3

theorem sizeAdd_of_lt {x y : Nat} (h : x + y < 2 ^ 64) : sizeAdd x y = x + y := by
  unfold sizeAdd sizeMod; omega

theorem sizeSub_of_le {x y : Nat} (h : y ≤ x) (hx : x < 2 ^ 64) : sizeSub x y = x - y := by
  unfold sizeSub sizeMod; omega

/-- The padding computed by `AllocateAligned` is the distance to the next multiple of 8. -/
theorem slop_eq (p : Nat) :
    (if p % 8 = 0 then 0 else sizeSub 8 (p % 8)) = (8 - p % 8) % 8 := by
  unfold sizeSub sizeMod; split <;> omega

/-! ## The three operations in closed form -/

theorem AllocateFallback_fst (a : Arena) (bytes fresh : Nat) :
    (a.AllocateFallback bytes fresh).1 = fresh := by
  unfold Arena.AllocateFallback Arena.AllocateNewBlock
  split <;> rfl

theorem AllocateFallback_large (a : Arena) (bytes fresh : Nat) (h : 1024 < bytes) :
    a.AllocateFallback bytes fresh =
      (fresh,
        { a with
          blocks_ := a.blocks_ ++ [{ base := fresh, size := bytes }]
          memory_usage_ := sizeAdd a.memory_usage_ (sizeAdd bytes 8) }) := by
  have hk : bytes > kBlockSize / 4 := by simpa [kBlockSize] using h
  unfold Arena.AllocateFallback
  rw [if_pos hk]
  simp only [Arena.AllocateNewBlock, sizeofPtr]

theorem AllocateFallback_small (a : Arena) (bytes fresh : Nat) (h : bytes ≤ 1024) :
    a.AllocateFallback bytes fresh =
      (fresh,
        { alloc_ptr_ := fresh + bytes
          alloc_bytes_remaining_ := 4096 - bytes
          blocks_ := a.blocks_ ++ [{ base := fresh, size := 4096 }]
          memory_usage_ := sizeAdd a.memory_usage_ 4104 }) := by
  have hk : ¬ bytes > kBlockSize / 4 := by simpa [kBlockSize] using h
  have hs : sizeSub 4096 bytes = 4096 - bytes := sizeSub_of_le (by omega) (by norm_num)
  have ha : sizeAdd 4096 8 = 4104 := by decide
  unfold Arena.AllocateFallback
  rw [if_neg hk]
  simp only [Arena.AllocateNewBlock, sizeofPtr, kBlockSize, hs, ha]

theorem AllocateAligned_unfold (a : Arena) (bytes fresh : Nat) :
    a.AllocateAligned bytes fresh =
      if sizeAdd bytes ((8 - a.alloc_ptr_ % 8) % 8) ≤ a.alloc_bytes_remaining_ then
        some (a.alloc_ptr_ + (8 - a.alloc_ptr_ % 8) % 8,
          { a with
            alloc_ptr_ := a.alloc_ptr_ + sizeAdd bytes ((8 - a.alloc_ptr_ % 8) % 8)
            alloc_bytes_remaining_ :=
              sizeSub a.alloc_bytes_remaining_ (sizeAdd bytes ((8 - a.alloc_ptr_ % 8) % 8)) })
      else if fresh % 8 = 0 then some (a.AllocateFallback bytes fresh) else none := by
  unfold Arena.AllocateAligned
  simp only [align_eq, Nat.reduceSub, land_seven, slop_eq]
  by_cases h : sizeAdd bytes ((8 - a.alloc_ptr_ % 8) % 8) ≤ a.alloc_bytes_remaining_
  · have hal : (a.alloc_ptr_ + (8 - a.alloc_ptr_ % 8) % 8) % 8 = 0 := by omega
    simp [h, hal]
  · simp [h, AllocateFallback_fst]

/-- Every successful call is one of three shapes: a bump inside the current block, a
dedicated block for a request above the threshold, or a fresh standard block. -/
theorem call_cases (a : Arena) (c : Call) (r : Nat) (a' : Arena)
    (h : a.call c = some (r, a')) :
    (∃ s n, s ≤ 7 ∧ n ≤ a.alloc_bytes_remaining_ ∧ r = a.alloc_ptr_ + s ∧
        ((c.aligned = false ∧ s = 0 ∧ n = c.bytes ∧ 0 < c.bytes) ∨
          (c.aligned = true ∧ s = (8 - a.alloc_ptr_ % 8) % 8 ∧ n = sizeAdd c.bytes s ∧
            (c.bytes + s < 2 ^ 64 → n = c.bytes + s))) ∧
        a' = { a with
          alloc_ptr_ := a.alloc_ptr_ + n
          alloc_bytes_remaining_ := sizeSub a.alloc_bytes_remaining_ n }) ∨
    (1024 < c.bytes ∧ r = c.fresh ∧
        a' = { a with
          blocks_ := a.blocks_ ++ [{ base := c.fresh, size := c.bytes }]
          memory_usage_ := sizeAdd a.memory_usage_ (sizeAdd c.bytes 8) }) ∨
    (c.bytes ≤ 1024 ∧ r = c.fresh ∧
        (c.aligned = false → 0 < c.bytes ∧ a.alloc_bytes_remaining_ < c.bytes) ∧
        (c.aligned = true →
          a.alloc_bytes_remaining_ < c.bytes + (8 - a.alloc_ptr_ % 8) % 8 ∧ c.fresh % 8 = 0) ∧
        a' = { alloc_ptr_ := c.fresh + c.bytes
               alloc_bytes_remaining_ := 4096 - c.bytes
               blocks_ := a.blocks_ ++ [{ base := c.fresh, size := 4096 }]
               memory_usage_ := sizeAdd a.memory_usage_ 4104 }) := by
  unfold Arena.call at h
  by_cases hal : c.aligned = true
  · rw [if_pos hal, AllocateAligned_unfold] at h
    by_cases hfit : sizeAdd c.bytes ((8 - a.alloc_ptr_ % 8) % 8) ≤ a.alloc_bytes_remaining_
    · rw [if_pos hfit] at h
      simp only [Option.some.injEq, Prod.mk.injEq] at h
      refine Or.inl ⟨(8 - a.alloc_ptr_ % 8) % 8,
        sizeAdd c.bytes ((8 - a.alloc_ptr_ % 8) % 8), by omega, hfit, h.1.symm,
        Or.inr ⟨hal, rfl, rfl, fun hlt => sizeAdd_of_lt hlt⟩, h.2.symm⟩
    · rw [if_neg hfit] at h
      by_cases hfresh : c.fresh % 8 = 0
      · rw [if_pos hfresh] at h
        by_cases hbig : 1024 < c.bytes
        · rw [AllocateFallback_large a _ _ hbig] at h
          simp only [Option.some.injEq, Prod.mk.injEq] at h
          exact Or.inr (Or.inl ⟨hbig, h.1.symm, h.2.symm⟩)
        · have hsmall : c.bytes ≤ 1024 := by omega
          rw [AllocateFallback_small a _ _ hsmall] at h
          simp only [Option.some.injEq, Prod.mk.injEq] at h
          have hadd : sizeAdd c.bytes ((8 - a.alloc_ptr_ % 8) % 8) =
              c.bytes + (8 - a.alloc_ptr_ % 8) % 8 := sizeAdd_of_lt (by omega)
          refine Or.inr (Or.inr ⟨hsmall, h.1.symm, fun hf => ?_, fun _ => ⟨by omega, hfresh⟩,
            h.2.symm⟩)
          rw [hf] at hal; exact absurd hal (by decide)
      · rw [if_neg hfresh] at h
        exact absurd h (by simp)
  · have hal' : c.aligned = false := by simpa using hal
    rw [if_neg hal] at h
    unfold Arena.Allocate at h
    by_cases hpos : c.bytes > 0
    · rw [if_pos hpos] at h
      by_cases hfit : c.bytes ≤ a.alloc_bytes_remaining_
      · rw [if_pos hfit] at h
        simp only [Option.some.injEq, Prod.mk.injEq] at h
        exact Or.inl ⟨0, c.bytes, by omega, hfit, by omega,
          Or.inl ⟨hal', rfl, rfl, hpos⟩, h.2.symm⟩
      · rw [if_neg hfit] at h
        by_cases hbig : 1024 < c.bytes
        · rw [AllocateFallback_large a _ _ hbig] at h
          simp only [Option.some.injEq, Prod.mk.injEq] at h
          exact Or.inr (Or.inl ⟨hbig, h.1.symm, h.2.symm⟩)
        · have hsmall : c.bytes ≤ 1024 := by omega
          rw [AllocateFallback_small a _ _ hsmall] at h
          simp only [Option.some.injEq, Prod.mk.injEq] at h
          refine Or.inr (Or.inr ⟨hsmall, h.1.symm, fun _ => ⟨hpos, by omega⟩, fun hf => ?_,
            h.2.symm⟩)
          rw [hf] at hal'; exact absurd hal' (by decide)
    · rw [if_neg hpos] at h
      exact absurd h (by simp)

/-! ## The branch taken by a call -/

theorem fits_aligned (a : Arena) (c : Call) (hal : c.aligned = true) :
    a.fits c = true ↔
      sizeAdd c.bytes ((8 - a.alloc_ptr_ % 8) % 8) ≤ a.alloc_bytes_remaining_ := by
  unfold Arena.fits
  simp only [hal, if_true, align_eq, Nat.reduceSub, land_seven, slop_eq, decide_eq_true_eq]

theorem fits_plain (a : Arena) (c : Call) (hal : c.aligned = false) :
    a.fits c = true ↔ c.bytes ≤ a.alloc_bytes_remaining_ := by
  unfold Arena.fits
  simp [hal]

/-- A call that passes the guard leaves the block list alone. -/
theorem blocks_of_fits (a : Arena) (c : Call) (r : Nat) (a' : Arena)
    (hf : a.fits c = true) (h : a.call c = some (r, a')) : a'.blocks_ = a.blocks_ := by
  unfold Arena.call at h
  by_cases hal : c.aligned = true
  · have hfit := (fits_aligned a c hal).mp hf
    rw [if_pos hal, AllocateAligned_unfold, if_pos hfit] at h
    simp only [Option.some.injEq, Prod.mk.injEq] at h
    rw [← h.2]
  · have hal' : c.aligned = false := by simpa using hal
    have hfit := (fits_plain a c hal').mp hf
    rw [if_neg hal] at h
    unfold Arena.Allocate at h
    by_cases hpos : c.bytes > 0
    · rw [if_pos hpos, if_pos hfit] at h
      simp only [Option.some.injEq, Prod.mk.injEq] at h
      rw [← h.2]
    · rw [if_neg hpos] at h
      exact absurd h (by simp)

/-- The case split `call_cases`, with the branch attached to each case. -/
theorem call_branch_cases (a : Arena) (c : Call) (r : Nat) (a' : Arena)
    (h : a.call c = some (r, a')) :
    (a.branch c = Branch.bump ∧
      ∃ n, n ≤ a.alloc_bytes_remaining_ ∧
        a' = { a with
          alloc_ptr_ := a.alloc_ptr_ + n
          alloc_bytes_remaining_ := sizeSub a.alloc_bytes_remaining_ n }) ∨
    (a.branch c = Branch.dedicated ∧ 1024 < c.bytes ∧ r = c.fresh ∧
        a' = { a with
          blocks_ := a.blocks_ ++ [{ base := c.fresh, size := c.bytes }]
          memory_usage_ := sizeAdd a.memory_usage_ (sizeAdd c.bytes 8) }) ∨
    (a.branch c = Branch.standard ∧ c.bytes ≤ 1024 ∧ r = c.fresh ∧
        a' = { alloc_ptr_ := c.fresh + c.bytes
               alloc_bytes_remaining_ := 4096 - c.bytes
               blocks_ := a.blocks_ ++ [{ base := c.fresh, size := 4096 }]
               memory_usage_ := sizeAdd a.memory_usage_ 4104 }) := by
  rcases call_cases a c r a' h with
    ⟨p, n, hp, hn, hr, hk, ha'⟩ | ⟨hbig, hr, ha'⟩ | ⟨hsmall, hr, hpl, hal, ha'⟩
  · refine Or.inl ⟨?_, n, hn, ha'⟩
    have hf : a.fits c = true := by
      rcases hk with ⟨hal, _, hnb, _⟩ | ⟨hal, hp', hnb, _⟩
      · exact (fits_plain a c hal).mpr (by omega)
      · exact (fits_aligned a c hal).mpr (by rw [← hp', ← hnb]; exact hn)
    simp [Arena.branch, hf]
  · refine Or.inr (Or.inl ⟨?_, hbig, hr, ha'⟩)
    have hf : ¬ a.fits c = true := by
      intro hf
      have hb := blocks_of_fits a c r a' hf h
      rw [ha'] at hb
      have hlen := congrArg List.length hb
      simp at hlen
    have hk : c.bytes > kBlockSize / 4 := by simpa [kBlockSize] using hbig
    simp [Arena.branch, hf, hk]
  · refine Or.inr (Or.inr ⟨?_, hsmall, hr, ha'⟩)
    have hf : ¬ a.fits c = true := by
      intro hf
      by_cases hc : c.aligned = true
      · have h1 := (fits_aligned a c hc).mp hf
        have h2 := (hal hc).1
        rw [sizeAdd_of_lt (by omega)] at h1
        omega
      · have hc' : c.aligned = false := by simpa using hc
        have h1 := (fits_plain a c hc').mp hf
        have h2 := (hpl hc').2
        omega
    have hk : ¬ c.bytes > kBlockSize / 4 := by simpa [kBlockSize] using hsmall
    simp [Arena.branch, hf, hk]

/-! ## Claims -/

/-- C1: in every Arena state (so in every reachable one) and for every `bytes`,
`AllocateAligned` passes its final assertion and returns an address that is a multiple of
`align = 8`, provided the block address the provider hands back is a multiple of 8. -/
theorem AllocateAligned_returns_aligned (a : Arena) (bytes fresh : Nat)
    (hfresh : fresh % 8 = 0) :
    align = 8 ∧ ∃ r a', a.AllocateAligned bytes fresh = some (r, a') ∧ r % align = 0 := by
  refine ⟨align_eq, ?_⟩
  rw [AllocateAligned_unfold, align_eq]
  split
  · exact ⟨_, _, rfl, by omega⟩
  · refine ⟨(a.AllocateFallback bytes fresh).1, (a.AllocateFallback bytes fresh).2, ?_, ?_⟩
    · simp [hfresh]
    · rw [AllocateFallback_fst]; exact hfresh

theorem AllocateAligned_returns_aligned_witness :
    align = 8 ∧ ∃ r a',
      (Arena.mk 8097 95 [⟨4096, 4096⟩] 4104).AllocateAligned 200 8192 = some (r, a') ∧
        r % align = 0 :=
  AllocateAligned_returns_aligned (Arena.mk 8097 95 [⟨4096, 4096⟩] 4104) 200 8192 (by decide)

/-- C4: when `0 < bytes ≤ alloc_bytes_remaining_`, `Allocate(bytes)` returns the old cursor,
moves the cursor forward by `bytes`, lowers the remaining count by `bytes`, and leaves the
block list and the memory-usage counter as they were. -/
theorem Allocate_fast_path (a : Arena) (bytes fresh : Nat)
    (hrem : a.alloc_bytes_remaining_ < 2 ^ 64)
    (hpos : 0 < bytes) (hfit : bytes ≤ a.alloc_bytes_remaining_) :
    ∃ a', a.Allocate bytes fresh = some (a.alloc_ptr_, a') ∧
      a'.alloc_ptr_ = a.alloc_ptr_ + bytes ∧
      a'.alloc_bytes_remaining_ = a.alloc_bytes_remaining_ - bytes ∧
      a'.blocks_ = a.blocks_ ∧
      a'.MemoryUsage = a.MemoryUsage := by
  refine ⟨{ a with
      alloc_ptr_ := a.alloc_ptr_ + bytes
      alloc_bytes_remaining_ := sizeSub a.alloc_bytes_remaining_ bytes },
    ?_, rfl, sizeSub_of_le hfit hrem, rfl, rfl⟩
  simp [Arena.Allocate, hpos, hfit]

theorem Allocate_fast_path_witness :
    ∃ a', (Arena.mk 4097 4095 [⟨4096, 4096⟩] 4104).Allocate 95 0 = some (4097, a') ∧
      a'.alloc_ptr_ = 4097 + 95 ∧
      a'.alloc_bytes_remaining_ = 4095 - 95 ∧
      a'.blocks_ = [⟨4096, 4096⟩] ∧
      a'.MemoryUsage = (Arena.mk 4097 4095 [⟨4096, 4096⟩] 4104).MemoryUsage :=
  Allocate_fast_path (Arena.mk 4097 4095 [⟨4096, 4096⟩] 4104) 95 0
    (by decide) (by decide) (by decide)

/-- A request above the quarter-block threshold that `Allocate` cannot serve from the
current block gets a block of its own; cursor and remaining count stay as they were. -/
theorem Allocate_large_fallback (a : Arena) (bytes fresh : Nat)
    (hbig : 1024 < bytes) (hfit : a.alloc_bytes_remaining_ < bytes) :
    a.Allocate bytes fresh =
      some (fresh,
        { a with
          blocks_ := a.blocks_ ++ [{ base := fresh, size := bytes }]
          memory_usage_ := sizeAdd a.memory_usage_ (sizeAdd bytes 8) }) := by
  have hpos : bytes > 0 := by omega
  have hnf : ¬ bytes ≤ a.alloc_bytes_remaining_ := by omega
  unfold Arena.Allocate
  rw [if_pos hpos, if_neg hnf, AllocateFallback_large a bytes fresh hbig]

/-- The same for `AllocateAligned`, when the `size_t` sum `bytes + slop` exceeds the
remaining count and the provider's block is 8-aligned. -/
theorem AllocateAligned_large_fallback (a : Arena) (bytes fresh : Nat)
    (hbig : 1024 < bytes) (hfresh : fresh % 8 = 0)
    (hfit : a.alloc_bytes_remaining_ < sizeAdd bytes ((8 - a.alloc_ptr_ % 8) % 8)) :
    a.AllocateAligned bytes fresh =
      some (fresh,
        { a with
          blocks_ := a.blocks_ ++ [{ base := fresh, size := bytes }]
          memory_usage_ := sizeAdd a.memory_usage_ (sizeAdd bytes 8) }) := by
  have hnf : ¬ sizeAdd bytes ((8 - a.alloc_ptr_ % 8) % 8) ≤ a.alloc_bytes_remaining_ := by
    omega
  rw [AllocateAligned_unfold, if_neg hnf, if_pos hfresh, AllocateFallback_large a bytes fresh hbig]

/-- C5: the state `⟨4097, 4095, [⟨4096, 4096⟩], 4104⟩` is reached from a new Arena by
`Allocate(1)`.  There `AllocateAligned(2^64 - 7)` has slop 7, the request exceeds both the
threshold 1024 and the 4095 remaining bytes, yet the `size_t` sum `bytes + slop` wraps to 0:
the call takes the fast path, returns `4104` inside the current block and appends no
block. -/
theorem AllocateAligned_large_request_not_dedicated :
    Arena.run ([], Arena.new) [⟨false, 1, 4096⟩] =
        some ([⟨4096, 1⟩], ⟨4097, 4095, [⟨4096, 4096⟩], 4104⟩) ∧
      1024 < 2 ^ 64 - 7 ∧ 2 ^ 64 - 7 < sizeMod ∧
      4095 < (2 ^ 64 - 7) + (8 - 4097 % 8) % 8 ∧
      (Arena.mk 4097 4095 [⟨4096, 4096⟩] 4104).AllocateAligned (2 ^ 64 - 7) 8192 =
        some (4104, ⟨4097, 4095, [⟨4096, 4096⟩], 4104⟩) := by
  decide

/-- C6: a request of `1 ≤ bytes ≤ 1024` that does not fit the current block (`Allocate`:
`bytes > remaining`; `AllocateAligned`: `bytes + slop > remaining`, the provider's block
being 8-aligned) appends one block of 4096 bytes, returns its base address, and leaves the
cursor at `base + bytes` with `4096 - bytes` remaining. -/
theorem small_request_fallback (a : Arena) (bytes fresh : Nat)
    (hpos : 1 ≤ bytes) (hsmall : bytes ≤ 1024) :
    (a.alloc_bytes_remaining_ < bytes →
      ∃ a', a.Allocate bytes fresh = some (fresh, a') ∧
        a'.blocks_ = a.blocks_ ++ [{ base := fresh, size := 4096 }] ∧
        a'.alloc_ptr_ = fresh + bytes ∧ a'.alloc_bytes_remaining_ = 4096 - bytes) ∧
    (a.alloc_bytes_remaining_ < bytes + (8 - a.alloc_ptr_ % 8) % 8 → fresh % 8 = 0 →
      ∃ a', a.AllocateAligned bytes fresh = some (fresh, a') ∧
        a'.blocks_ = a.blocks_ ++ [{ base := fresh, size := 4096 }] ∧
        a'.alloc_ptr_ = fresh + bytes ∧ a'.alloc_bytes_remaining_ = 4096 - bytes) := by
  constructor
  · intro hfit
    have hp : bytes > 0 := by omega
    have hnf : ¬ bytes ≤ a.alloc_bytes_remaining_ := by omega
    refine ⟨(a.AllocateFallback bytes fresh).2, ?_, ?_⟩
    · unfold Arena.Allocate
      rw [if_pos hp, if_neg hnf, AllocateFallback_small a bytes fresh hsmall]
    · rw [AllocateFallback_small a bytes fresh hsmall]
      exact ⟨rfl, rfl, rfl⟩
  · intro hfit hfresh
    have hadd : sizeAdd bytes ((8 - a.alloc_ptr_ % 8) % 8) = bytes + (8 - a.alloc_ptr_ % 8) % 8 :=
      sizeAdd_of_lt (by omega)
    have hnf : ¬ sizeAdd bytes ((8 - a.alloc_ptr_ % 8) % 8) ≤ a.alloc_bytes_remaining_ := by
      omega
    refine ⟨(a.AllocateFallback bytes fresh).2, ?_, ?_⟩
    · rw [AllocateAligned_unfold, if_neg hnf, if_pos hfresh,
        AllocateFallback_small a bytes fresh hsmall]
    · rw [AllocateFallback_small a bytes fresh hsmall]
      exact ⟨rfl, rfl, rfl⟩

theorem small_request_fallback_witness :
    (∃ a', (Arena.mk 8097 95 [⟨4096, 4096⟩] 4104).Allocate 200 8192 = some (8192, a') ∧
        a'.blocks_ = [⟨4096, 4096⟩] ++ [{ base := 8192, size := 4096 }] ∧
        a'.alloc_ptr_ = 8192 + 200 ∧ a'.alloc_bytes_remaining_ = 4096 - 200) ∧
    (∃ a', (Arena.mk 8097 95 [⟨4096, 4096⟩] 4104).AllocateAligned 200 8192 = some (8192, a') ∧
        a'.blocks_ = [⟨4096, 4096⟩] ++ [{ base := 8192, size := 4096 }] ∧
        a'.alloc_ptr_ = 8192 + 200 ∧ a'.alloc_bytes_remaining_ = 4096 - 200) :=
  ⟨(small_request_fallback (Arena.mk 8097 95 [⟨4096, 4096⟩] 4104) 200 8192
      (by decide) (by decide)).1 (by decide),
    (small_request_fallback (Arena.mk 8097 95 [⟨4096, 4096⟩] 4104) 200 8192
      (by decide) (by decide)).2 (by decide) (by decide)⟩

/-- C7: with `slop = (8 - cursor mod 8) mod 8`, if `bytes + slop ≤ remaining` then
`AllocateAligned(bytes)` returns `cursor + slop`, moves the cursor forward by exactly
`bytes + slop`, lowers the remaining count by exactly `bytes + slop`, and leaves the block
list and the memory-usage counter as they were. -/
theorem AllocateAligned_fast_path (a : Arena) (bytes fresh : Nat)
    (hrem : a.alloc_bytes_remaining_ < 2 ^ 64)
    (hfit : bytes + (8 - a.alloc_ptr_ % 8) % 8 ≤ a.alloc_bytes_remaining_) :
    ∃ a', a.AllocateAligned bytes fresh =
        some (a.alloc_ptr_ + (8 - a.alloc_ptr_ % 8) % 8, a') ∧
      a'.alloc_ptr_ = a.alloc_ptr_ + (bytes + (8 - a.alloc_ptr_ % 8) % 8) ∧
      a'.alloc_bytes_remaining_ =
        a.alloc_bytes_remaining_ - (bytes + (8 - a.alloc_ptr_ % 8) % 8) ∧
      a'.blocks_ = a.blocks_ ∧
      a'.MemoryUsage = a.MemoryUsage := by
  have hadd : sizeAdd bytes ((8 - a.alloc_ptr_ % 8) % 8) = bytes + (8 - a.alloc_ptr_ % 8) % 8 :=
    sizeAdd_of_lt (by omega)
  have hle : sizeAdd bytes ((8 - a.alloc_ptr_ % 8) % 8) ≤ a.alloc_bytes_remaining_ := by
    omega
  refine ⟨{ a with
      alloc_ptr_ := a.alloc_ptr_ + sizeAdd bytes ((8 - a.alloc_ptr_ % 8) % 8)
      alloc_bytes_remaining_ :=
        sizeSub a.alloc_bytes_remaining_ (sizeAdd bytes ((8 - a.alloc_ptr_ % 8) % 8)) },
    ?_, ?_, ?_, rfl, rfl⟩
  · rw [AllocateAligned_unfold, if_pos hle]
  · simp only [hadd]
  · simp only [hadd]
    exact sizeSub_of_le hfit hrem

theorem AllocateAligned_fast_path_witness :
    ∃ a', (Arena.mk 4097 4095 [⟨4096, 4096⟩] 4104).AllocateAligned 10 0 =
        some (4097 + (8 - 4097 % 8) % 8, a') ∧
      a'.alloc_ptr_ = 4097 + (10 + (8 - 4097 % 8) % 8) ∧
      a'.alloc_bytes_remaining_ = 4095 - (10 + (8 - 4097 % 8) % 8) ∧
      a'.blocks_ = [⟨4096, 4096⟩] ∧
      a'.MemoryUsage = (Arena.mk 4097 4095 [⟨4096, 4096⟩] 4104).MemoryUsage :=
  AllocateAligned_fast_path (Arena.mk 4097 4095 [⟨4096, 4096⟩] 4104) 10 0
    (by decide) (by decide)

/-! ## Runs -/

theorem grantedBytes_append (gs : List Grant) (g : Grant) :
    grantedBytes (gs ++ [g]) = grantedBytes gs + g.bytes := by
  simp [grantedBytes]

theorem blockBytes_append (bs : List Block) (b : Block) :
    blockBytes (bs ++ [b]) = blockBytes bs + b.size := by
  simp [blockBytes]

theorem reservedBytes_append (bs : List Block) (b : Block) :
    reservedBytes (bs ++ [b]) = reservedBytes bs + (b.size + 8) := by
  simp [reservedBytes, sizeofPtr]

theorem reservedBytes_eq (bs : List Block) :
    reservedBytes bs = blockBytes bs + 8 * bs.length := by
  induction bs with
  | nil => rfl
  | cons b bs ih =>
    simp only [reservedBytes, blockBytes, List.map_cons, List.sum_cons, List.length_cons,
      sizeofPtr] at ih ⊢
    omega

/-- A property kept by every successful call whose argument satisfies `Q` holds at the end
of every run whose calls all satisfy `Q`. -/
theorem run_invariant (P : List Grant × Arena → Prop) (Q : Call → Prop)
    (step : ∀ s c r a', P s → Q c → s.2.call c = some (r, a') →
      P (s.1 ++ [{ addr := r, bytes := c.bytes }], a')) :
    ∀ cs s s', P s → (∀ c ∈ cs, Q c) → Arena.run s cs = some s' → P s' := by
  intro cs
  induction cs with
  | nil =>
    intro s s' hP _ hrun
    simp only [Arena.run, Option.some.injEq] at hrun
    exact hrun ▸ hP
  | cons c cs ih =>
    intro s s' hP hQ hrun
    unfold Arena.run at hrun
    cases hc : s.2.call c with
    | none => rw [hc] at hrun; exact absurd hrun (by simp)
    | some ra =>
      obtain ⟨r, a'⟩ := ra
      rw [hc] at hrun
      exact ih _ _ (step s c r a' hP (hQ c (List.mem_cons_self _ _)) hc)
        (fun d hd => hQ d (List.mem_cons_of_mem _ hd)) hrun

/-- The ranges returned by a run carry the `bytes` arguments of its calls. -/
theorem run_grantedBytes :
    ∀ cs s s', Arena.run s cs = some s' →
      grantedBytes s'.1 = grantedBytes s.1 + requestedBytes cs := by
  intro cs
  induction cs with
  | nil =>
    intro s s' hrun
    simp only [Arena.run, Option.some.injEq] at hrun
    simp [← hrun, requestedBytes]
  | cons c cs ih =>
    intro s s' hrun
    unfold Arena.run at hrun
    cases hc : s.2.call c with
    | none => rw [hc] at hrun; exact absurd hrun (by simp)
    | some ra =>
      obtain ⟨r, a'⟩ := ra
      rw [hc] at hrun
      have h := ih _ _ hrun
      simp only [grantedBytes_append] at h
      simp only [requestedBytes, List.map_cons, List.sum_cons] at h ⊢
      omega

theorem usage_step (a : Arena) (c : Call) (r : Nat) (a' : Arena)
    (hU : UsageTracksBlocks a) (h : a.call c = some (r, a')) : UsageTracksBlocks a' := by
  unfold UsageTracksBlocks at hU ⊢
  rcases call_cases a c r a' h with ⟨s, n, _, _, _, _, rfl⟩ | ⟨_, _, rfl⟩ | ⟨_, _, _, _, rfl⟩
  · exact hU
  · simp only [reservedBytes_append, hU, sizeAdd, sizeMod]
    omega
  · simp only [reservedBytes_append, hU, sizeAdd, sizeMod]
    omega

theorem accounted_step (s : List Grant × Arena) (c : Call) (r : Nat) (a' : Arena)
    (hA : Accounted s) (hQ : c.aligned = true → c.bytes + 7 < 2 ^ 64)
    (h : s.2.call c = some (r, a')) :
    Accounted (s.1 ++ [{ addr := r, bytes := c.bytes }], a') := by
  obtain ⟨hrem, hsum⟩ := hA
  unfold Accounted
  simp only [grantedBytes_append]
  rcases call_cases s.2 c r a' h with
    ⟨p, n, hp, hn, _, hk, rfl⟩ | ⟨_, _, rfl⟩ | ⟨hsmall, _, _, _, rfl⟩
  · have hsub : sizeSub s.2.alloc_bytes_remaining_ n = s.2.alloc_bytes_remaining_ - n :=
      sizeSub_of_le hn (by omega)
    simp only [hsub]
    rcases hk with ⟨_, _, hnb, _⟩ | ⟨hal, _, _, hnb⟩
    · omega
    · have := hnb (by have := hQ hal; omega)
      omega
  · simp only [blockBytes_append]
    omega
  · simp only [blockBytes_append]
    omega

theorem reachable_usage (a : Arena) (h : a.Reachable) : UsageTracksBlocks a := by
  obtain ⟨cs, gs, hrun⟩ := h
  exact run_invariant (fun s => UsageTracksBlocks s.2) (fun _ => True)
    (fun s c r a' hP _ hc => usage_step s.2 c r a' hP hc) cs ([], Arena.new) (gs, a)
    (by simp [UsageTracksBlocks, Arena.new, reservedBytes]) (fun _ _ => trivial) hrun

theorem run_blocks_prefix (cs : List Call) (s s' : List Grant × Arena)
    (hrun : Arena.run s cs = some s') : ∃ l, s'.2.blocks_ = s.2.blocks_ ++ l := by
  refine run_invariant (fun t => ∃ l, t.2.blocks_ = s.2.blocks_ ++ l) (fun _ => True) ?_
    cs s s' ⟨[], by simp⟩ (fun _ _ => trivial) hrun
  intro t c r a' hP _ hc
  obtain ⟨l, hl⟩ := hP
  rcases call_cases t.2 c r a' hc with
    ⟨_, _, _, _, _, _, rfl⟩ | ⟨_, _, rfl⟩ | ⟨_, _, _, _, rfl⟩
  · exact ⟨l, hl⟩
  · exact ⟨l ++ [{ base := c.fresh, size := c.bytes }], by simp [hl]⟩
  · exact ⟨l ++ [{ base := c.fresh, size := 4096 }], by simp [hl]⟩

/-- Variant of `run_invariant` in which each step may use a property `H` of the block list
after the step; `H` is assumed of the final block list and must pass to prefixes. -/
theorem run_invariant_blocks (P : List Grant × Arena → Prop) (Q : Call → Prop)
    (H : List Block → Prop) (hH : ∀ l l', H (l ++ l') → H l)
    (step : ∀ s c r a', P s → Q c → H a'.blocks_ → s.2.call c = some (r, a') →
      P (s.1 ++ [{ addr := r, bytes := c.bytes }], a')) :
    ∀ cs s s', P s → (∀ c ∈ cs, Q c) → Arena.run s cs = some s' → H s'.2.blocks_ → P s' := by
  intro cs
  induction cs with
  | nil =>
    intro s s' hP _ hrun _
    simp only [Arena.run, Option.some.injEq] at hrun
    exact hrun ▸ hP
  | cons c cs ih =>
    intro s s' hP hQ hrun hfin
    unfold Arena.run at hrun
    cases hc : s.2.call c with
    | none => rw [hc] at hrun; exact absurd hrun (by simp)
    | some ra =>
      obtain ⟨r, a'⟩ := ra
      rw [hc] at hrun
      obtain ⟨l, hl⟩ := run_blocks_prefix cs _ s' hrun
      have hmid : H a'.blocks_ := hH a'.blocks_ l (by rw [← hl]; exact hfin)
      exact ih _ _ (step s c r a' hP (hQ c (List.mem_cons_self _ _)) hmid hc)
        (fun d hd => hQ d (List.mem_cons_of_mem _ hd)) hrun hfin

theorem anchored_rem_le {a : Arena} (h : Anchored a) : a.alloc_bytes_remaining_ ≤ 4096 := by
  rcases h with ⟨_, h0⟩ | ⟨b, _, _, hlo, hhi⟩ <;> omega

theorem anchored_step (a : Arena) (c : Call) (r : Nat) (a' : Arena)
    (hA : Anchored a) (h : a.call c = some (r, a')) : Anchored a' := by
  have hrem := anchored_rem_le hA
  rcases call_cases a c r a' h with
    ⟨p, n, _, hn, _, _, rfl⟩ | ⟨_, _, rfl⟩ | ⟨hsmall, _, _, _, rfl⟩
  · have hsub : sizeSub a.alloc_bytes_remaining_ n = a.alloc_bytes_remaining_ - n :=
      sizeSub_of_le hn (by omega)
    unfold Anchored
    simp only [hsub]
    rcases hA with ⟨hp0, hr0⟩ | ⟨b, hb, hsz, hlo, hhi⟩
    · left; omega
    · right; exact ⟨b, hb, hsz, by omega, by omega⟩
  · rcases hA with h0 | ⟨b, hb, hrest⟩
    · exact Or.inl h0
    · exact Or.inr ⟨b, List.mem_append_left _ hb, hrest⟩
  · right
    refine ⟨{ base := c.fresh, size := 4096 }, by simp, rfl, ?_, ?_⟩
    · show c.fresh ≤ c.fresh + c.bytes
      omega
    · show c.fresh + c.bytes + (4096 - c.bytes) = c.fresh + 4096
      omega

/-- In a bump step for a bounded request the consumed count is `bytes` plus the padding. -/
theorem bump_consumed {a : Arena} {c : Call} {p n : Nat} (hQ : c.Bounded) (hp : p ≤ 7)
    (hk : (c.aligned = false ∧ p = 0 ∧ n = c.bytes ∧ 0 < c.bytes) ∨
      (c.aligned = true ∧ p = (8 - a.alloc_ptr_ % 8) % 8 ∧ n = sizeAdd c.bytes p ∧
        (c.bytes + p < 2 ^ 64 → n = c.bytes + p))) :
    n = c.bytes + p := by
  rcases hk with ⟨_, hp0, hn, _⟩ | ⟨hal, _, _, hn⟩
  · omega
  · exact hn (by have := hQ.2 hal; omega)

theorem placed_step (s : List Grant × Arena) (c : Call) (r : Nat) (a' : Arena)
    (hP : Placed s) (hQ : c.Bounded) (h : s.2.call c = some (r, a')) :
    Placed (s.1 ++ [{ addr := r, bytes := c.bytes }], a') := by
  obtain ⟨hA, hG⟩ := hP
  refine ⟨anchored_step s.2 c r a' hA h, ?_⟩
  have hrem := anchored_rem_le hA
  have hpos := hQ.1
  intro g hg
  simp only [List.mem_append, List.mem_singleton] at hg
  rcases call_cases s.2 c r a' h with
    ⟨p, n, hp, hn, hr, hk, rfl⟩ | ⟨_, hr, rfl⟩ | ⟨hsmall, hr, _, _, rfl⟩
  · have hnb := bump_consumed hQ hp hk
    rcases hg with hg | rfl
    · exact hG g hg
    · rcases hA with ⟨_, hr0⟩ | ⟨b, hb, hsz, hlo, hhi⟩
      · omega
      · refine ⟨b, hb, ?_, ?_⟩
        · show b.base ≤ r
          omega
        · show r + c.bytes ≤ b.base + b.size
          omega
  · rcases hg with hg | rfl
    · obtain ⟨b, hb, hin⟩ := hG g hg
      exact ⟨b, List.mem_append_left _ hb, hin⟩
    · refine ⟨{ base := c.fresh, size := c.bytes }, by simp, ?_, ?_⟩
      · show c.fresh ≤ r
        omega
      · show r + c.bytes ≤ c.fresh + c.bytes
        omega
  · rcases hg with hg | rfl
    · obtain ⟨b, hb, hin⟩ := hG g hg
      exact ⟨b, List.mem_append_left _ hb, hin⟩
    · refine ⟨{ base := c.fresh, size := 4096 }, by simp, ?_, ?_⟩
      · show c.fresh ≤ r
        omega
      · show r + c.bytes ≤ c.fresh + 4096
        omega

theorem disjoint_of_pairwise_append {bs : List Block} {b' : Block}
    (h : (bs ++ [b']).Pairwise Block.Disjoint) : ∀ b ∈ bs, b.Disjoint b' := by
  intro b hb
  exact (List.pairwise_append.mp h).2.2 b hb b' (List.mem_singleton_self _)

theorem separated_step (s : List Grant × Arena) (c : Call) (r : Nat) (a' : Arena)
    (hP : Placed s) (hS : Separated s) (hQ : c.Bounded)
    (hD : a'.blocks_.Pairwise Block.Disjoint) (h : s.2.call c = some (r, a')) :
    Separated (s.1 ++ [{ addr := r, bytes := c.bytes }], a') := by
  obtain ⟨hA, hG⟩ := hP
  obtain ⟨hF, hPW⟩ := hS
  have hrem := anchored_rem_le hA
  have hpos := hQ.1
  unfold Separated
  rw [List.pairwise_append]
  simp only [List.mem_append, List.mem_singleton, List.pairwise_singleton, true_and,
    forall_eq]
  rcases call_cases s.2 c r a' h with
    ⟨p, n, hp, hn, hr, hk, rfl⟩ | ⟨_, hr, rfl⟩ | ⟨hsmall, hr, _, _, rfl⟩
  · have hnb := bump_consumed hQ hp hk
    have hsub : sizeSub s.2.alloc_bytes_remaining_ n = s.2.alloc_bytes_remaining_ - n :=
      sizeSub_of_le hn (by omega)
    simp only [hsub]
    refine ⟨?_, hPW, ?_⟩
    · intro g hg
      rcases hg with hg | rfl
      · rcases hF g hg with h1 | h1
        · left; omega
        · right; omega
      · left
        show r + c.bytes ≤ s.2.alloc_ptr_ + n
        omega
    · intro g hg
      unfold Grant.Overlaps
      show ¬ (g.addr < r + c.bytes ∧ r < g.addr + g.bytes)
      rcases hF g hg with h1 | h1 <;> omega
  · have hdis := disjoint_of_pairwise_append hD
    refine ⟨?_, hPW, ?_⟩
    · intro g hg
      rcases hg with hg | rfl
      · exact hF g hg
      · show r + c.bytes ≤ s.2.alloc_ptr_ ∨
          s.2.alloc_ptr_ + s.2.alloc_bytes_remaining_ ≤ r
        rcases hA with ⟨h0, h1⟩ | ⟨b, hb, hsz, hlo, hhi⟩
        · right; omega
        · have hbd := hdis b hb
          unfold Block.Disjoint at hbd
          simp only at hbd
          rcases hbd with hbd | hbd
          · right; omega
          · left; omega
    · intro g hg
      obtain ⟨b, hb, hin⟩ := hG g hg
      have hbd := hdis b hb
      unfold Block.Disjoint at hbd
      unfold Grant.Inside at hin
      unfold Grant.Overlaps
      simp only at hbd
      show ¬ (g.addr < r + c.bytes ∧ r < g.addr + g.bytes)
      omega
  · have hdis := disjoint_of_pairwise_append hD
    refine ⟨?_, hPW, ?_⟩
    · intro g hg
      rcases hg with hg | rfl
      · obtain ⟨b, hb, hin⟩ := hG g hg
        have hbd := hdis b hb
        unfold Block.Disjoint at hbd
        unfold Grant.Inside at hin
        simp only at hbd
        show g.addr + g.bytes ≤ c.fresh + c.bytes ∨
          c.fresh + c.bytes + (4096 - c.bytes) ≤ g.addr
        omega
      · left
        show r + c.bytes ≤ c.fresh + c.bytes
        omega
    · intro g hg
      obtain ⟨b, hb, hin⟩ := hG g hg
      have hbd := hdis b hb
      unfold Block.Disjoint at hbd
      unfold Grant.Inside at hin
      unfold Grant.Overlaps
      simp only at hbd
      show ¬ (g.addr < r + c.bytes ∧ r < g.addr + g.bytes)
      omega

/-- For bounded requests every returned range lies inside one block of the Arena. -/
theorem run_ranges_inside (cs : List Call) (gs : List Grant) (a : Arena)
    (hrun : Arena.run ([], Arena.new) cs = some (gs, a)) (hQ : ∀ c ∈ cs, c.Bounded) :
    ∀ g ∈ gs, ∃ b ∈ a.blocks_, g.Inside b :=
  (run_invariant Placed Call.Bounded placed_step cs ([], Arena.new) (gs, a)
    ⟨Or.inl ⟨rfl, rfl⟩, by simp⟩ hQ hrun).2

/-- For bounded requests and pairwise disjoint provider blocks no two returned ranges
overlap. -/
theorem run_ranges_disjoint (cs : List Call) (gs : List Grant) (a : Arena)
    (hrun : Arena.run ([], Arena.new) cs = some (gs, a)) (hQ : ∀ c ∈ cs, c.Bounded)
    (hD : a.blocks_.Pairwise Block.Disjoint) :
    gs.Pairwise fun g h => ¬ g.Overlaps h :=
  (run_invariant_blocks (fun s => Placed s ∧ Separated s) Call.Bounded
    (fun l => l.Pairwise Block.Disjoint)
    (fun _ _ h => (List.pairwise_append.mp h).1)
    (fun s c r a' hP hc hH hcall =>
      ⟨placed_step s c r a' hP.1 hc hcall, separated_step s c r a' hP.1 hP.2 hc hH hcall⟩)
    cs ([], Arena.new) (gs, a)
    ⟨⟨Or.inl ⟨rfl, rfl⟩, by simp⟩, by simp [Separated]⟩ hQ hrun hD).2.2

/-! ## Blocks of real memory

The provider hands out blocks that are pairwise disjoint and lie below address `2 ^ 63`.
Such blocks hold at most `2 ^ 63` bytes together, so the counter `memory_usage_` cannot
wrap. -/

/-- Pairwise disjoint blocks below address `L` hold at most `L` bytes together. -/
theorem blockBytes_le_of_disjoint (L : Nat) (bs : List Block)
    (hD : bs.Pairwise Block.Disjoint) (hL : ∀ b ∈ bs, b.base + b.size ≤ L) :
    blockBytes bs ≤ L := by
  have key : ∀ l : List Block, l.Pairwise Block.Disjoint →
      ∃ S : Finset Nat, S.card = blockBytes l ∧
        ∀ x ∈ S, ∃ b ∈ l, b.base ≤ x ∧ x < b.base + b.size := by
    intro l
    induction l with
    | nil => intro _; exact ⟨∅, by simp [blockBytes], by simp⟩
    | cons b l ih =>
      intro hP
      obtain ⟨hb, hl⟩ := List.pairwise_cons.mp hP
      obtain ⟨S, hcard, hS⟩ := ih hl
      have hdisj : Disjoint (Finset.Ico b.base (b.base + b.size)) S := by
        rw [Finset.disjoint_left]
        intro x hx hxS
        obtain ⟨b', hb', hlo, hhi⟩ := hS x hxS
        have hbd := hb b' hb'
        unfold Block.Disjoint at hbd
        rw [Finset.mem_Ico] at hx
        omega
      refine ⟨Finset.Ico b.base (b.base + b.size) ∪ S, ?_, ?_⟩
      · rw [Finset.card_union_of_disjoint hdisj, Nat.card_Ico, hcard]
        simp only [blockBytes, List.map_cons, List.sum_cons]
        omega
      · intro x hx
        rcases Finset.mem_union.mp hx with hx | hx
        · rw [Finset.mem_Ico] at hx
          exact ⟨b, List.mem_cons_self _ _, hx.1, hx.2⟩
        · obtain ⟨b', hb', hlo, hhi⟩ := hS x hx
          exact ⟨b', List.mem_cons_of_mem _ hb', hlo, hhi⟩
  obtain ⟨S, hcard, hS⟩ := key bs hD
  have hsub : S ⊆ Finset.range L := by
    intro x hx
    obtain ⟨b, hb, _, hhi⟩ := hS x hx
    have := hL b hb
    rw [Finset.mem_range]
    omega
  have hle := Finset.card_le_card hsub
  rw [Finset.card_range, hcard] at hle
  exact hle

/-- Every block of a reachable state is larger than the threshold: a dedicated block has
the size of a request above 1024, a standard block has 4096 bytes. -/
theorem reachable_blocks_large (a : Arena) (h : a.Reachable) :
    ∀ b ∈ a.blocks_, 1024 < b.size := by
  obtain ⟨cs, gs, hrun⟩ := h
  refine run_invariant (fun s => ∀ b ∈ s.2.blocks_, 1024 < b.size) (fun _ => True) ?_
    cs ([], Arena.new) (gs, a) (by simp [Arena.new]) (fun _ _ => trivial) hrun
  intro s c r a' hP _ hc b hb
  rcases call_cases s.2 c r a' hc with
    ⟨_, _, _, _, _, _, rfl⟩ | ⟨hbig, _, rfl⟩ | ⟨_, _, _, _, rfl⟩
  · exact hP b hb
  · rcases List.mem_append.mp hb with hb | hb
    · exact hP b hb
    · rw [List.mem_singleton.mp hb]; exact hbig
  · rcases List.mem_append.mp hb with hb | hb
    · exact hP b hb
    · rw [List.mem_singleton.mp hb]
      show 1024 < 4096
      decide

/-- With 8 bytes of bookkeeping per block, blocks larger than 1024 bytes reserve less than
`2 ^ 64` bytes as long as they hold at most `2 ^ 63` bytes. -/
theorem reservedBytes_lt_of_large (bs : List Block) (hbig : ∀ b ∈ bs, 1024 < b.size)
    (hsum : blockBytes bs ≤ 2 ^ 63) : reservedBytes bs < 2 ^ 64 := by
  have hlen : ∀ l : List Block, (∀ b ∈ l, 1024 < b.size) →
      1024 * l.length ≤ blockBytes l := by
    intro l
    induction l with
    | nil => intro _; simp [blockBytes]
    | cons b l ih =>
      intro hl
      have h1 := hl b (List.mem_cons_self _ _)
      have h2 := ih (fun d hd => hl d (List.mem_cons_of_mem _ hd))
      simp only [blockBytes, List.map_cons, List.sum_cons, List.length_cons] at h2 ⊢
      omega
  have h1 := hlen bs hbig
  have h2 := reservedBytes_eq bs
  omega

/-- In a reachable state made of real memory the counter equals the bytes reserved. -/
theorem reachable_usage_exact (a : Arena) (h : a.Reachable)
    (hD : a.blocks_.Pairwise Block.Disjoint) (hL : ∀ b ∈ a.blocks_, b.base + b.size ≤ 2 ^ 63) :
    a.memory_usage_ = reservedBytes a.blocks_ := by
  have hU : a.memory_usage_ = reservedBytes a.blocks_ % 2 ^ 64 := reachable_usage a h
  have hlt := reservedBytes_lt_of_large a.blocks_ (reachable_blocks_large a h)
    (blockBytes_le_of_disjoint (2 ^ 63) a.blocks_ hD hL)
  rw [hU, Nat.mod_eq_of_lt hlt]

theorem run_snoc :
    ∀ cs s s1 c r a', Arena.run s cs = some s1 → s1.2.call c = some (r, a') →
      Arena.run s (cs ++ [c]) = some (s1.1 ++ [{ addr := r, bytes := c.bytes }], a') := by
  intro cs
  induction cs with
  | nil =>
    intro s s1 c r a' hrun hc
    simp only [Arena.run, Option.some.injEq] at hrun
    subst hrun
    simp [Arena.run, hc]
  | cons d cs ih =>
    intro s s1 c r a' hrun hc
    unfold Arena.run at hrun
    cases hd : s.2.call d with
    | none => rw [hd] at hrun; exact absurd hrun (by simp)
    | some ra =>
      obtain ⟨r0, a0⟩ := ra
      rw [hd] at hrun
      have h := ih _ s1 c r a' hrun hc
      simp only [List.cons_append, Arena.run, hd]
      exact h

theorem reachable_step (a : Arena) (c : Call) (r : Nat) (a' : Arena)
    (h : a.Reachable) (hc : a.call c = some (r, a')) : a'.Reachable := by
  obtain ⟨cs, gs, hrun⟩ := h
  exact ⟨cs ++ [c], gs ++ [{ addr := r, bytes := c.bytes }],
    run_snoc cs ([], Arena.new) (gs, a) c r a' hrun hc⟩

/-! ## Claims about runs -/

/-- C2: on a new Arena, `Allocate(1)`, `AllocateAligned(2^64 - 7)`, `Allocate(16)` with one
provider block `[4096, 8192)`: the aligned call computes `needed = (2^64 - 7) + 7 = 0` in
`size_t`, returns `4104` and leaves the cursor at `4097`, so the third call returns
`[4097, 4113)`, which overlaps the range `[4104, 4104 + 2^64 - 7)` returned before. -/
theorem aligned_wrap_ranges_overlap :
    Arena.run ([], Arena.new) [⟨false, 1, 4096⟩, ⟨true, 2 ^ 64 - 7, 0⟩, ⟨false, 16, 0⟩] =
        some ([⟨4096, 1⟩, ⟨4104, 2 ^ 64 - 7⟩, ⟨4097, 16⟩],
          ⟨4113, 4079, [⟨4096, 4096⟩], 4104⟩) ∧
      (∀ c ∈ [Call.mk false 1 4096, ⟨true, 2 ^ 64 - 7, 0⟩, ⟨false, 16, 0⟩],
        1 ≤ c.bytes ∧ c.bytes < sizeMod) ∧
      List.Pairwise Block.Disjoint [⟨4096, 4096⟩] ∧
      Grant.Overlaps ⟨4104, 2 ^ 64 - 7⟩ ⟨4097, 16⟩ := by
  decide

/-- C3: on a new Arena, `Allocate(1)` then `AllocateAligned(2^64 - 7)` with the provider
block `[4096, 8192)`: the aligned call returns `4104` for a request of `2^64 - 7` bytes, a
range that lies inside no block of the Arena. -/
theorem aligned_wrap_range_outside_blocks :
    Arena.run ([], Arena.new) [⟨false, 1, 4096⟩, ⟨true, 2 ^ 64 - 7, 0⟩] =
        some ([⟨4096, 1⟩, ⟨4104, 2 ^ 64 - 7⟩], ⟨4097, 4095, [⟨4096, 4096⟩], 4104⟩) ∧
      (∀ c ∈ [Call.mk false 1 4096, ⟨true, 2 ^ 64 - 7, 0⟩], 1 ≤ c.bytes ∧ c.bytes < sizeMod) ∧
      ∀ b ∈ [Block.mk 4096 4096], ¬ Grant.Inside ⟨4104, 2 ^ 64 - 7⟩ b := by
  decide

/-- For requests in which no `size_t` sum of `AllocateAligned` wraps, the counter is at least
the sum of the `bytes` arguments as long as the bytes reserved stay below `2 ^ 64`. -/
theorem usage_ge_requested_of_room (cs : List Call) (gs : List Grant) (a : Arena)
    (hrun : Arena.run ([], Arena.new) cs = some (gs, a))
    (hbytes : ∀ c ∈ cs, c.aligned = true → c.bytes + 7 < 2 ^ 64)
    (hroom : reservedBytes a.blocks_ < 2 ^ 64) :
    requestedBytes cs ≤ a.MemoryUsage := by
  have hU : UsageTracksBlocks a := reachable_usage a ⟨cs, gs, hrun⟩
  have hA : Accounted (gs, a) :=
    run_invariant Accounted (fun c => c.aligned = true → c.bytes + 7 < 2 ^ 64)
      accounted_step cs ([], Arena.new) (gs, a)
      (by simp [Accounted, Arena.new, grantedBytes, blockBytes]) hbytes hrun
  have hG := run_grantedBytes cs ([], Arena.new) (gs, a) hrun
  have hR := reservedBytes_eq a.blocks_
  unfold UsageTracksBlocks at hU
  unfold Accounted at hA
  simp only [grantedBytes, List.map_nil, List.sum_nil] at hG
  simp only [grantedBytes] at hA
  unfold Arena.MemoryUsage
  rw [hU, Nat.mod_eq_of_lt hroom]
  omega

/-- For requests in which no `size_t` sum of `AllocateAligned` wraps and blocks of real
memory, the counter is at least the sum of the `bytes` arguments. -/
theorem usage_ge_requested_of_bounded (cs : List Call) (gs : List Grant) (a : Arena)
    (hrun : Arena.run ([], Arena.new) cs = some (gs, a))
    (hbytes : ∀ c ∈ cs, c.aligned = true → c.bytes + 7 < 2 ^ 64)
    (hD : a.blocks_.Pairwise Block.Disjoint)
    (hL : ∀ b ∈ a.blocks_, b.base + b.size ≤ 2 ^ 63) :
    requestedBytes cs ≤ a.MemoryUsage :=
  usage_ge_requested_of_room cs gs a hrun hbytes
    (reservedBytes_lt_of_large a.blocks_ (reachable_blocks_large a ⟨cs, gs, hrun⟩)
      (blockBytes_le_of_disjoint (2 ^ 63) a.blocks_ hD hL))

/-- A call that returns does not lower the counter when the counter has room for the block
the call obtains. -/
theorem usage_le_of_room (a : Arena) (c : Call) (r : Nat) (a' : Arena)
    (hcall : a.call c = some (r, a'))
    (hroom : ∀ b, a'.blocks_ = a.blocks_ ++ [b] → a.memory_usage_ + (b.size + 8) < 2 ^ 64) :
    a.memory_usage_ ≤ a'.memory_usage_ := by
  rcases call_cases a c r a' hcall with
    ⟨s, n, _, _, _, _, rfl⟩ | ⟨_, _, rfl⟩ | ⟨_, _, _, _, rfl⟩
  · exact Nat.le_refl _
  · have h := hroom { base := c.fresh, size := c.bytes } rfl
    simp only [sizeAdd, sizeMod] at h ⊢
    omega
  · have h := hroom { base := c.fresh, size := 4096 } rfl
    simp only [sizeAdd, sizeMod] at h ⊢
    omega

/-- C8: on a new Arena, `Allocate(1)` then `AllocateAligned(2^64 - 7)` with the provider
block `[4096, 8192)`: the aligned call computes `needed = (2^64 - 7) + 7 = 0` in `size_t`
and is served without any reservation, so `MemoryUsage()` stays at 4104 while the `bytes`
arguments sum to `2^64 - 6`. -/
theorem aligned_wrap_usage_below_requested :
    Arena.run ([], Arena.new) [⟨false, 1, 4096⟩, ⟨true, 2 ^ 64 - 7, 0⟩] =
        some ([⟨4096, 1⟩, ⟨4104, 2 ^ 64 - 7⟩], ⟨4097, 4095, [⟨4096, 4096⟩], 4104⟩) ∧
      (∀ c ∈ [Call.mk false 1 4096, ⟨true, 2 ^ 64 - 7, 0⟩], 1 ≤ c.bytes ∧ c.bytes < sizeMod) ∧
      List.Pairwise Block.Disjoint [⟨4096, 4096⟩] ∧
      (∀ b ∈ [Block.mk 4096 4096], b.base + b.size ≤ 2 ^ 63) ∧
      requestedBytes [⟨false, 1, 4096⟩, ⟨true, 2 ^ 64 - 7, 0⟩] = 2 ^ 64 - 6 ∧
      (Arena.mk 4097 4095 [⟨4096, 4096⟩] 4104).MemoryUsage = 4104 ∧
      (Arena.mk 4097 4095 [⟨4096, 4096⟩] 4104).MemoryUsage <
        requestedBytes [⟨false, 1, 4096⟩, ⟨true, 2 ^ 64 - 7, 0⟩] := by
  decide

/-- C9: `MemoryUsage()` is 0 for a new Arena, and in every state the Arena can reach a call
of `Allocate` or `AllocateAligned` that returns never lowers it, the blocks handed out by
the provider (the one of this call included) being real memory: pairwise disjoint and below
address `2^63`. -/
theorem MemoryUsage_monotone (a : Arena) (hreach : a.Reachable) (c : Call) (r : Nat)
    (a' : Arena) (hcall : a.call c = some (r, a'))
    (hD : a'.blocks_.Pairwise Block.Disjoint)
    (hL : ∀ b ∈ a'.blocks_, b.base + b.size ≤ 2 ^ 63) :
    Arena.new.MemoryUsage = 0 ∧ a.MemoryUsage ≤ a'.MemoryUsage := by
  refine ⟨rfl, ?_⟩
  have hreach' := reachable_step a c r a' hreach hcall
  have hlt := reservedBytes_lt_of_large a'.blocks_ (reachable_blocks_large a' hreach')
    (blockBytes_le_of_disjoint (2 ^ 63) a'.blocks_ hD hL)
  have hU : a.memory_usage_ = reservedBytes a.blocks_ % 2 ^ 64 := reachable_usage a hreach
  have hle : a.memory_usage_ ≤ reservedBytes a.blocks_ := by
    rw [hU]; exact Nat.mod_le _ _
  refine usage_le_of_room a c r a' hcall ?_
  intro b hb
  rw [hb, reservedBytes_append] at hlt
  omega

theorem MemoryUsage_monotone_witness :
    Arena.new.MemoryUsage = 0 ∧
      (Arena.mk 4097 4095 [⟨4096, 4096⟩] 4104).MemoryUsage ≤
        (Arena.mk 4097 4095 [⟨4096, 4096⟩, ⟨16384, 5000⟩] 9112).MemoryUsage :=
  MemoryUsage_monotone (Arena.mk 4097 4095 [⟨4096, 4096⟩] 4104)
    ⟨[⟨false, 1, 4096⟩], [⟨4096, 1⟩], by decide⟩ ⟨false, 5000, 16384⟩ 16384
    (Arena.mk 4097 4095 [⟨4096, 4096⟩, ⟨16384, 5000⟩] 9112) (by decide) (by decide)
    (by decide)

/-- C10: in every state reachable from a new Arena, the blocks handed out by the provider
being real memory (pairwise disjoint and below address `2^63`), `MemoryUsage()` equals the
sum over the owned blocks of `size + sizeof(char*)`, that is the sum of the block sizes plus
8 times the number of blocks; in particular it is at least the sum of the block sizes. -/
theorem MemoryUsage_eq_reserved (a : Arena) (h : a.Reachable)
    (hD : a.blocks_.Pairwise Block.Disjoint)
    (hL : ∀ b ∈ a.blocks_, b.base + b.size ≤ 2 ^ 63) :
    a.MemoryUsage = reservedBytes a.blocks_ ∧
      reservedBytes a.blocks_ = blockBytes a.blocks_ + 8 * a.blocks_.length ∧
      blockBytes a.blocks_ ≤ a.MemoryUsage := by
  have hU : a.MemoryUsage = reservedBytes a.blocks_ := reachable_usage_exact a h hD hL
  have hR := reservedBytes_eq a.blocks_
  exact ⟨hU, hR, by omega⟩

theorem MemoryUsage_eq_reserved_witness :
    (Arena.mk 8392 3896 [⟨4096, 4000⟩, ⟨8192, 4096⟩] 8112).MemoryUsage =
        reservedBytes [⟨4096, 4000⟩, ⟨8192, 4096⟩] ∧
      reservedBytes [⟨4096, 4000⟩, ⟨8192, 4096⟩] =
        blockBytes [⟨4096, 4000⟩, ⟨8192, 4096⟩] + 8 * [Block.mk 4096 4000, ⟨8192, 4096⟩].length ∧
      blockBytes [⟨4096, 4000⟩, ⟨8192, 4096⟩] ≤
        (Arena.mk 8392 3896 [⟨4096, 4000⟩, ⟨8192, 4096⟩] 8112).MemoryUsage :=
  MemoryUsage_eq_reserved (Arena.mk 8392 3896 [⟨4096, 4000⟩, ⟨8192, 4096⟩] 8112)
    ⟨[⟨false, 4000, 4096⟩, ⟨true, 200, 8192⟩], [⟨4096, 4000⟩, ⟨8192, 200⟩], by decide⟩
    (by decide) (by decide)

/-! ## Claims about single calls, continued -/

theorem reachable_anchored (a : Arena) (h : a.Reachable) : Anchored a := by
  obtain ⟨cs, gs, hrun⟩ := h
  exact run_invariant (fun s => Anchored s.2) (fun _ => True)
    (fun s c r a' hP _ hc => anchored_step s.2 c r a' hP hc) cs ([], Arena.new) (gs, a)
    (Or.inl ⟨rfl, rfl⟩) (fun _ _ => trivial) hrun

/-- C11: a call that returns leaves the block list as it was or appends exactly one block
at its end; the blocks already in the list keep their position, address and size. -/
theorem call_appends_at_most_one_block (a : Arena) (c : Call) (r : Nat) (a' : Arena)
    (hcall : a.call c = some (r, a')) :
    a'.blocks_ = a.blocks_ ∨ ∃ b, a'.blocks_ = a.blocks_ ++ [b] := by
  rcases call_cases a c r a' hcall with
    ⟨_, _, _, _, _, _, rfl⟩ | ⟨_, _, rfl⟩ | ⟨_, _, _, _, rfl⟩
  · exact Or.inl rfl
  · exact Or.inr ⟨_, rfl⟩
  · exact Or.inr ⟨_, rfl⟩

theorem call_appends_at_most_one_block_witness :
    (Arena.mk 8392 3896 [⟨4096, 4096⟩, ⟨8192, 4096⟩] 8208).blocks_ =
        (Arena.mk 8097 95 [⟨4096, 4096⟩] 4104).blocks_ ∨
      ∃ b, (Arena.mk 8392 3896 [⟨4096, 4096⟩, ⟨8192, 4096⟩] 8208).blocks_ =
        (Arena.mk 8097 95 [⟨4096, 4096⟩] 4104).blocks_ ++ [b] :=
  call_appends_at_most_one_block (Arena.mk 8097 95 [⟨4096, 4096⟩] 4104) ⟨true, 200, 8192⟩ 8192
    (Arena.mk 8392 3896 [⟨4096, 4096⟩, ⟨8192, 4096⟩] 8208) (by decide)

/-- C12 (as stated, refuted): in the state reached from a new Arena by `Allocate(1)`, with
4095 bytes remaining, `Allocate(2000)` is above the threshold 1024 but is served from the
current block: it returns the cursor 4097 and acquires no block. -/
theorem large_request_served_from_current_block :
    Arena.Reachable ⟨4097, 4095, [⟨4096, 4096⟩], 4104⟩ ∧ 1024 < 2000 ∧
      (Arena.mk 4097 4095 [⟨4096, 4096⟩] 4104).Allocate 2000 8192 =
        some (4097, ⟨6097, 2095, [⟨4096, 4096⟩], 4104⟩) :=
  ⟨⟨[⟨false, 1, 4096⟩], [⟨4096, 1⟩], by decide⟩, by decide, by decide⟩

/-- C12 (amended): in every reachable state and for every `bytes > 1024`, `Allocate(bytes)`
is served from a newly acquired dedicated block of size exactly `bytes`, whose base address
it returns with cursor and remaining count untouched, whenever `bytes` exceeds the remaining
count of the current block; otherwise it is served from the current block and no block is
acquired. -/
theorem Allocate_large_request (a : Arena) (hreach : a.Reachable) (bytes fresh : Nat)
    (hbig : 1024 < bytes) :
    (a.alloc_bytes_remaining_ < bytes →
      a.Allocate bytes fresh =
        some (fresh,
          { a with
            blocks_ := a.blocks_ ++ [{ base := fresh, size := bytes }]
            memory_usage_ := sizeAdd a.memory_usage_ (sizeAdd bytes 8) })) ∧
    (bytes ≤ a.alloc_bytes_remaining_ →
      a.Allocate bytes fresh =
        some (a.alloc_ptr_,
          { a with
            alloc_ptr_ := a.alloc_ptr_ + bytes
            alloc_bytes_remaining_ := a.alloc_bytes_remaining_ - bytes })) := by
  have hrem := anchored_rem_le (reachable_anchored a hreach)
  constructor
  · intro hfit
    exact Allocate_large_fallback a bytes fresh hbig hfit
  · intro hfit
    have hpos : bytes > 0 := by omega
    have hsub : sizeSub a.alloc_bytes_remaining_ bytes = a.alloc_bytes_remaining_ - bytes :=
      sizeSub_of_le hfit (by omega)
    unfold Arena.Allocate
    rw [if_pos hpos, if_pos hfit, hsub]

theorem Allocate_large_request_witness :
    ((Arena.mk 4097 4095 [⟨4096, 4096⟩] 4104).alloc_bytes_remaining_ < 5000 →
      (Arena.mk 4097 4095 [⟨4096, 4096⟩] 4104).Allocate 5000 8192 =
        some (8192,
          { (Arena.mk 4097 4095 [⟨4096, 4096⟩] 4104) with
            blocks_ := (Arena.mk 4097 4095 [⟨4096, 4096⟩] 4104).blocks_ ++
              [{ base := 8192, size := 5000 }]
            memory_usage_ :=
              sizeAdd (Arena.mk 4097 4095 [⟨4096, 4096⟩] 4104).memory_usage_
                (sizeAdd 5000 8) })) ∧
    (5000 ≤ (Arena.mk 4097 4095 [⟨4096, 4096⟩] 4104).alloc_bytes_remaining_ →
      (Arena.mk 4097 4095 [⟨4096, 4096⟩] 4104).Allocate 5000 8192 =
        some ((Arena.mk 4097 4095 [⟨4096, 4096⟩] 4104).alloc_ptr_,
          { (Arena.mk 4097 4095 [⟨4096, 4096⟩] 4104) with
            alloc_ptr_ := (Arena.mk 4097 4095 [⟨4096, 4096⟩] 4104).alloc_ptr_ + 5000
            alloc_bytes_remaining_ :=
              (Arena.mk 4097 4095 [⟨4096, 4096⟩] 4104).alloc_bytes_remaining_ - 5000 })) :=
  Allocate_large_request (Arena.mk 4097 4095 [⟨4096, 4096⟩] 4104)
    ⟨[⟨false, 1, 4096⟩], [⟨4096, 1⟩], by decide⟩ 5000 8192 (by decide)

/-- C13: `Allocate(0)` fails its assertion in every state.  `AllocateAligned` has no such
check: on a new Arena `AllocateAligned(0)` returns the null address, and in the state reached
by `Allocate(1)` it returns `4104` and consumes 7 bytes of padding. -/
theorem zero_byte_requests :
    (∀ (a : Arena) (fresh : Nat), a.Allocate 0 fresh = none) ∧
      Arena.new.AllocateAligned 0 4096 = some (0, Arena.new) ∧
      (Arena.mk 4097 4095 [⟨4096, 4096⟩] 4104).AllocateAligned 0 8192 =
        some (4104, ⟨4104, 4088, [⟨4096, 4096⟩], 4104⟩) :=
  ⟨fun _ _ => rfl, by decide, by decide⟩

/-- C14 (as stated, refuted): with the cursor at 4097 (slop 7) and 4095 bytes remaining,
`AllocateAligned(10)` fits the current block and lowers the remaining count by 17, not 16:
it leaves 4078. -/
theorem ten_bytes_misaligned_consumes_seventeen :
    4097 % 8 ≠ 0 ∧ 10 + (8 - 4097 % 8) % 8 ≤ 4095 ∧
      (Arena.mk 4097 4095 [⟨4096, 4096⟩] 4104).AllocateAligned 10 0 =
        some (4104, ⟨4114, 4078, [⟨4096, 4096⟩], 4104⟩) ∧
      4095 - 4078 ≠ 16 := by
  decide

/-- C14 (amended): when the request fits the current block, `AllocateAligned(10)` lowers
the remaining count by exactly `10 + slop` with `slop = (8 - cursor mod 8) mod 8`: exactly 10
when the cursor is aligned, between 11 and 17 when it is not, and 16 exactly when
`cursor mod 8 = 2`. -/
theorem AllocateAligned_ten_consumes (a : Arena) (fresh : Nat)
    (hrem : a.alloc_bytes_remaining_ < 2 ^ 64)
    (hfit : 10 + (8 - a.alloc_ptr_ % 8) % 8 ≤ a.alloc_bytes_remaining_) :
    ∃ r a', a.AllocateAligned 10 fresh = some (r, a') ∧
      a'.alloc_bytes_remaining_ + (10 + (8 - a.alloc_ptr_ % 8) % 8) =
        a.alloc_bytes_remaining_ ∧
      (a.alloc_ptr_ % 8 = 0 → a'.alloc_bytes_remaining_ + 10 = a.alloc_bytes_remaining_) ∧
      (a.alloc_ptr_ % 8 ≠ 0 →
        a'.alloc_bytes_remaining_ + 11 ≤ a.alloc_bytes_remaining_ ∧
          a.alloc_bytes_remaining_ ≤ a'.alloc_bytes_remaining_ + 17) ∧
      (a'.alloc_bytes_remaining_ + 16 = a.alloc_bytes_remaining_ ↔ a.alloc_ptr_ % 8 = 2) := by
  have hadd : sizeAdd 10 ((8 - a.alloc_ptr_ % 8) % 8) = 10 + (8 - a.alloc_ptr_ % 8) % 8 :=
    sizeAdd_of_lt (by omega)
  have hle : sizeAdd 10 ((8 - a.alloc_ptr_ % 8) % 8) ≤ a.alloc_bytes_remaining_ := by omega
  have hsub : sizeSub a.alloc_bytes_remaining_ (10 + (8 - a.alloc_ptr_ % 8) % 8) =
      a.alloc_bytes_remaining_ - (10 + (8 - a.alloc_ptr_ % 8) % 8) :=
    sizeSub_of_le hfit hrem
  refine ⟨a.alloc_ptr_ + (8 - a.alloc_ptr_ % 8) % 8,
    { a with
      alloc_ptr_ := a.alloc_ptr_ + sizeAdd 10 ((8 - a.alloc_ptr_ % 8) % 8)
      alloc_bytes_remaining_ :=
        sizeSub a.alloc_bytes_remaining_ (sizeAdd 10 ((8 - a.alloc_ptr_ % 8) % 8)) },
    ?_, ?_⟩
  · rw [AllocateAligned_unfold, if_pos hle]
  · simp only [hadd, hsub]
    omega

theorem AllocateAligned_ten_consumes_witness :
    ∃ r a', (Arena.mk 4098 4094 [⟨4096, 4096⟩] 4104).AllocateAligned 10 0 = some (r, a') ∧
      a'.alloc_bytes_remaining_ + (10 + (8 - 4098 % 8) % 8) = 4094 ∧
      (4098 % 8 = 0 → a'.alloc_bytes_remaining_ + 10 = 4094) ∧
      (4098 % 8 ≠ 0 →
        a'.alloc_bytes_remaining_ + 11 ≤ 4094 ∧ 4094 ≤ a'.alloc_bytes_remaining_ + 17) ∧
      (a'.alloc_bytes_remaining_ + 16 = 4094 ↔ 4098 % 8 = 2) :=
  AllocateAligned_ten_consumes (Arena.mk 4098 4094 [⟨4096, 4096⟩] 4104) 0
    (by decide) (by decide)

/-- C15: on a new Arena `Allocate(4000)` obtains a block of its own (cursor and remaining
count stay 0), and `Allocate(200)` then takes the small-request fallback: it acquires a
standard block of exactly 4096 bytes, returns its base address and leaves the cursor at
`base + 200` with 3896 bytes remaining.  The 200-byte range lies in the new block, and does
not touch the first block when the provider's two blocks are disjoint. -/
theorem Allocate_4000_then_200 (fresh1 fresh2 : Nat) :
    Arena.run ([], Arena.new) [⟨false, 4000, fresh1⟩, ⟨false, 200, fresh2⟩] =
        some ([⟨fresh1, 4000⟩, ⟨fresh2, 200⟩],
          ⟨fresh2 + 200, 3896, [⟨fresh1, 4000⟩, ⟨fresh2, 4096⟩], 8112⟩) ∧
      Arena.new.Allocate 4000 fresh1 = some (fresh1, ⟨0, 0, [⟨fresh1, 4000⟩], 4008⟩) ∧
      (Arena.mk 0 0 [⟨fresh1, 4000⟩] 4008).branch ⟨false, 200, fresh2⟩ = Branch.standard ∧
      (Arena.mk 0 0 [⟨fresh1, 4000⟩] 4008).Allocate 200 fresh2 =
        some (fresh2, ⟨fresh2 + 200, 3896, [⟨fresh1, 4000⟩, ⟨fresh2, 4096⟩], 8112⟩) ∧
      Grant.Inside ⟨fresh2, 200⟩ ⟨fresh2, 4096⟩ ∧
      (Block.Disjoint ⟨fresh1, 4000⟩ ⟨fresh2, 4096⟩ →
        ¬ Grant.Overlaps ⟨fresh2, 200⟩ ⟨fresh1, 4000⟩) := by
  have hu1 : sizeAdd 0 (sizeAdd 4000 8) = 4008 := by decide
  have hu2 : sizeAdd 4008 4104 = 8112 := by decide
  have h1 : Arena.new.Allocate 4000 fresh1 =
      some (fresh1, ⟨0, 0, [⟨fresh1, 4000⟩], 4008⟩) := by
    rw [Allocate_large_fallback Arena.new 4000 fresh1 (by decide) (by decide)]
    simp [Arena.new, hu1]
  have h2 : (Arena.mk 0 0 [⟨fresh1, 4000⟩] 4008).Allocate 200 fresh2 =
      some (fresh2, ⟨fresh2 + 200, 3896, [⟨fresh1, 4000⟩, ⟨fresh2, 4096⟩], 8112⟩) := by
    unfold Arena.Allocate
    rw [if_pos (by decide), if_neg (by simp), AllocateFallback_small _ 200 fresh2 (by decide)]
    simp [hu2]
  refine ⟨?_, h1, ?_, h2, ?_, ?_⟩
  · simp [Arena.run, Arena.call, h1, h2]
  · simp [Arena.branch, Arena.fits, kBlockSize]
  · unfold Grant.Inside
    simp
  · unfold Block.Disjoint Grant.Overlaps
    simp only
    omega

theorem Allocate_4000_then_200_witness :
    Arena.run ([], Arena.new) [⟨false, 4000, 4096⟩, ⟨false, 200, 8192⟩] =
        some ([⟨4096, 4000⟩, ⟨8192, 200⟩],
          ⟨8192 + 200, 3896, [⟨4096, 4000⟩, ⟨8192, 4096⟩], 8112⟩) ∧
      Arena.new.Allocate 4000 4096 = some (4096, ⟨0, 0, [⟨4096, 4000⟩], 4008⟩) ∧
      (Arena.mk 0 0 [⟨4096, 4000⟩] 4008).branch ⟨false, 200, 8192⟩ = Branch.standard ∧
      (Arena.mk 0 0 [⟨4096, 4000⟩] 4008).Allocate 200 8192 =
        some (8192, ⟨8192 + 200, 3896, [⟨4096, 4000⟩, ⟨8192, 4096⟩], 8112⟩) ∧
      Grant.Inside ⟨8192, 200⟩ ⟨8192, 4096⟩ ∧
      ¬ Grant.Overlaps ⟨8192, 200⟩ ⟨4096, 4000⟩ :=
  ⟨(Allocate_4000_then_200 4096 8192).1, (Allocate_4000_then_200 4096 8192).2.1,
    (Allocate_4000_then_200 4096 8192).2.2.1, (Allocate_4000_then_200 4096 8192).2.2.2.1,
    (Allocate_4000_then_200 4096 8192).2.2.2.2.1,
    (Allocate_4000_then_200 4096 8192).2.2.2.2.2 (by decide)⟩

/-- C19: in a state whose cursor is a multiple of 8 (the null cursor included), for a
`size_t` request of at least one byte, `AllocateAligned(bytes)` and `Allocate(bytes)` return
the same address and the same resulting state for the same provider response, the block
handed back by the provider being 8-aligned whenever the request does not fit the current
block. -/
theorem AllocateAligned_eq_Allocate (a : Arena) (bytes fresh : Nat)
    (hcur : a.alloc_ptr_ % 8 = 0) (hpos : 1 ≤ bytes) (hsize : bytes < 2 ^ 64)
    (hprov : a.alloc_bytes_remaining_ < bytes → fresh % 8 = 0) :
    a.AllocateAligned bytes fresh = a.Allocate bytes fresh := by
  have hslop : (8 - a.alloc_ptr_ % 8) % 8 = 0 := by omega
  have hadd : sizeAdd bytes 0 = bytes := sizeAdd_of_lt (by omega)
  have hp : bytes > 0 := by omega
  rw [AllocateAligned_unfold, hslop, hadd]
  unfold Arena.Allocate
  rw [if_pos hp]
  by_cases hfit : bytes ≤ a.alloc_bytes_remaining_
  · rw [if_pos hfit, if_pos hfit]
    rfl
  · rw [if_neg hfit, if_neg hfit, if_pos (hprov (by omega))]

theorem AllocateAligned_eq_Allocate_witness :
    Arena.new.AllocateAligned 100 4096 = Arena.new.Allocate 100 4096 :=
  AllocateAligned_eq_Allocate Arena.new 100 4096 (by decide) (by decide) (by decide)
    (fun _ => by decide)

/-! ## The current block along a run -/

theorem tracked_rem_le {cur : Option Block} {a : Arena} (h : Tracked cur a) :
    a.alloc_bytes_remaining_ ≤ 4096 := by
  rcases h with ⟨_, _, h0⟩ | ⟨b, _, _, _, hlo, hhi⟩ <;> omega

theorem tracked_step (cur : Option Block) (a : Arena) (c : Call) (r : Nat) (a' : Arena)
    (hT : Tracked cur a) (h : a.call c = some (r, a')) :
    Tracked
      (if a.branch c = Branch.standard then some { base := c.fresh, size := kBlockSize }
        else cur) a' := by
  have hrem := tracked_rem_le hT
  rcases call_branch_cases a c r a' h with
    ⟨hb, n, hn, rfl⟩ | ⟨hb, _, _, rfl⟩ | ⟨hb, hsmall, _, rfl⟩
  · have hsub : sizeSub a.alloc_bytes_remaining_ n = a.alloc_bytes_remaining_ - n :=
      sizeSub_of_le hn (by omega)
    rw [hb, if_neg (by decide)]
    unfold Tracked
    simp only [hsub]
    rcases hT with ⟨hc, hp0, hr0⟩ | ⟨b, hc, hmem, hsz, hlo, hhi⟩
    · left; exact ⟨hc, by omega, by omega⟩
    · right; exact ⟨b, hc, hmem, hsz, by omega, by omega⟩
  · rw [hb, if_neg (by decide)]
    rcases hT with h0 | ⟨b, hc, hmem, hrest⟩
    · exact Or.inl h0
    · exact Or.inr ⟨b, hc, List.mem_append_left _ hmem, hrest⟩
  · rw [hb, if_pos rfl]
    right
    refine ⟨{ base := c.fresh, size := kBlockSize }, rfl, by simp [kBlockSize], rfl, ?_, ?_⟩
    · show c.fresh ≤ c.fresh + c.bytes
      omega
    · show c.fresh + c.bytes + (4096 - c.bytes) = c.fresh + 4096
      omega

theorem run_tracked :
    ∀ cs cur s s', Tracked cur s.2 → Arena.run s cs = some s' →
      Tracked (Arena.current cur s.2 cs) s'.2 := by
  intro cs
  induction cs with
  | nil =>
    intro cur s s' hT hrun
    simp only [Arena.run, Option.some.injEq] at hrun
    simpa [Arena.current, ← hrun] using hT
  | cons c cs ih =>
    intro cur s s' hT hrun
    unfold Arena.run at hrun
    cases hc : s.2.call c with
    | none => rw [hc] at hrun; exact absurd hrun (by simp)
    | some ra =>
      obtain ⟨r, a'⟩ := ra
      rw [hc] at hrun
      have hstep := tracked_step cur s.2 c r a' hT hc
      have hfin := ih _ (s.1 ++ [{ addr := r, bytes := c.bytes }], a') s' hstep hrun
      simpa [Arena.current, hc] using hfin

theorem branch_bump {a : Arena} {c : Call} (h : a.branch c = Branch.bump) :
    a.fits c = true := by
  unfold Arena.branch at h
  by_cases hf : a.fits c = true
  · exact hf
  · rw [if_neg hf] at h
    split at h <;> exact absurd h (by decide)

theorem branch_standard {a : Arena} {c : Call} (h : a.branch c = Branch.standard) :
    ¬ a.fits c = true ∧ c.bytes ≤ 1024 := by
  unfold Arena.branch at h
  by_cases hf : a.fits c = true
  · rw [if_pos hf] at h
    exact absurd h (by decide)
  · rw [if_neg hf] at h
    by_cases hk : c.bytes > kBlockSize / 4
    · rw [if_pos hk] at h
      exact absurd h (by decide)
    · exact ⟨hf, by simpa [kBlockSize] using hk⟩

/-- Every subtraction from the remaining count is exact in `size_t`, as soon as the count
is at most one standard block. -/
theorem subtraction_exact (a : Arena) (c : Call) (m n : Nat)
    (hrem : a.alloc_bytes_remaining_ ≤ 4096) (h : a.subtraction c = some (m, n)) :
    n ≤ m ∧ sizeSub m n + n = m := by
  have key : n ≤ m ∧ m ≤ 4096 := by
    unfold Arena.subtraction at h
    cases hb : a.branch c with
    | bump =>
      rw [hb] at h
      have hf := branch_bump hb
      by_cases hal : c.aligned = true
      · have hfit := (fits_aligned a c hal).mp hf
        simp only [hal, if_true, align_eq, Nat.reduceSub, land_seven, slop_eq,
          Option.some.injEq, Prod.mk.injEq] at h
        omega
      · have hal' : c.aligned = false := by simpa using hal
        have hfit := (fits_plain a c hal').mp hf
        simp only [hal', Bool.false_eq_true, if_false, Option.some.injEq,
          Prod.mk.injEq] at h
        omega
    | dedicated =>
      rw [hb] at h
      exact absurd h (by simp)
    | standard =>
      rw [hb] at h
      have hs := (branch_standard hb).2
      simp only [kBlockSize, Option.some.injEq, Prod.mk.injEq] at h
      omega
  refine ⟨key.1, ?_⟩
  rw [sizeSub_of_le key.1 (by omega)]
  omega

theorem active_step (a : Arena) (c : Call) (r : Nat) (a' : Arena)
    (hA : Active a) (hpos : 1 ≤ c.bytes) (h : a.call c = some (r, a')) : Active a' := by
  obtain ⟨hnz, b, hmem, hsz, hlo, hhi⟩ := hA
  rcases call_cases a c r a' h with
    ⟨p, n, _, hn, _, _, rfl⟩ | ⟨_, _, rfl⟩ | ⟨hsmall, _, _, _, rfl⟩
  · have hsub : sizeSub a.alloc_bytes_remaining_ n = a.alloc_bytes_remaining_ - n :=
      sizeSub_of_le hn (by omega)
    unfold Active
    simp only [hsub]
    exact ⟨by omega, b, hmem, hsz, by omega, by omega⟩
  · exact ⟨hnz, b, List.mem_append_left _ hmem, hsz, hlo, hhi⟩
  · refine ⟨?_, { base := c.fresh, size := 4096 }, by simp, rfl, ?_, ?_⟩
    · show c.fresh + c.bytes ≠ 0
      omega
    · show c.fresh ≤ c.fresh + c.bytes
      omega
    · show c.fresh + c.bytes + (4096 - c.bytes) = c.fresh + 4096
      omega

theorem dormant_step (a : Arena) (c : Call) (r : Nat) (a' : Arena)
    (hD : Dormant a) (hpos : 1 ≤ c.bytes) (h : a.call c = some (r, a')) :
    (c.bytes ≤ 1024 → Active a') ∧ (1024 < c.bytes → Dormant a') := by
  obtain ⟨hp0, hr0⟩ := hD
  rcases call_cases a c r a' h with
    ⟨p, n, _, hn, _, hk, rfl⟩ | ⟨hbig, _, rfl⟩ | ⟨hsmall, _, _, _, rfl⟩
  · have hn0 : n = 0 := by omega
    subst hn0
    have hsub : sizeSub a.alloc_bytes_remaining_ 0 = 0 := by
      rw [sizeSub_of_le (by omega) (by omega)]; omega
    constructor
    · intro hsmall
      rcases hk with ⟨_, _, hnb, _⟩ | ⟨_, hp, _, hnb⟩
      · omega
      · have hp' : p = 0 := by rw [hp, hp0]
        have := hnb (by omega)
        omega
    · intro _
      unfold Dormant
      simp only [hsub]
      exact ⟨by omega, trivial⟩
  · exact ⟨fun hs => by omega, fun _ => ⟨hp0, hr0⟩⟩
  · refine ⟨fun _ => ?_, fun hb => by omega⟩
    refine ⟨?_, { base := c.fresh, size := 4096 }, by simp, rfl, ?_, ?_⟩
    · show c.fresh + c.bytes ≠ 0
      omega
    · show c.fresh ≤ c.fresh + c.bytes
      omega
    · show c.fresh + c.bytes + (4096 - c.bytes) = c.fresh + 4096
      omega

theorem run_active (cs : List Call) (s s' : List Grant × Arena)
    (hA : Active s.2) (hpos : ∀ c ∈ cs, 1 ≤ c.bytes) (hrun : Arena.run s cs = some s') :
    Active s'.2 :=
  run_invariant (fun t => Active t.2) (fun c => 1 ≤ c.bytes)
    (fun t c r a' hP hQ hc => active_step t.2 c r a' hP hQ hc) cs s s' hA hpos hrun

theorem run_dormant :
    ∀ cs s s', Dormant s.2 → (∀ c ∈ cs, 1 ≤ c.bytes) → Arena.run s cs = some s' →
      ((∃ c ∈ cs, c.bytes ≤ 1024) → Active s'.2) ∧
        ((∀ c ∈ cs, 1024 < c.bytes) → Dormant s'.2) := by
  intro cs
  induction cs with
  | nil =>
    intro s s' hD _ hrun
    simp only [Arena.run, Option.some.injEq] at hrun
    subst hrun
    exact ⟨fun ⟨c, hc, _⟩ => absurd hc (List.not_mem_nil c), fun _ => hD⟩
  | cons c cs ih =>
    intro s s' hD hpos hrun
    unfold Arena.run at hrun
    cases hc : s.2.call c with
    | none => rw [hc] at hrun; exact absurd hrun (by simp)
    | some ra =>
      obtain ⟨r, a'⟩ := ra
      rw [hc] at hrun
      have hstep := dormant_step s.2 c r a' hD (hpos c (List.mem_cons_self _ _)) hc
      have hpos' : ∀ d ∈ cs, 1 ≤ d.bytes := fun d hd => hpos d (List.mem_cons_of_mem _ hd)
      by_cases hsmall : c.bytes ≤ 1024
      · have hA := run_active cs _ s' (hstep.1 hsmall) hpos' hrun
        exact ⟨fun _ => hA, fun hall => by
          have := hall c (List.mem_cons_self _ _)
          omega⟩
      · have hD' := hstep.2 (by omega)
        have hrec := ih _ s' hD' hpos' hrun
        constructor
        · rintro ⟨d, hd, hds⟩
          rcases List.mem_cons.mp hd with rfl | hd'
          · exact absurd hds hsmall
          · exact hrec.1 ⟨d, hd', hds⟩
        · intro hall
          exact hrec.2 (fun d hd => hall d (List.mem_cons_of_mem _ hd))

/-! ## Claims about the current block -/

/-- C16 (as stated, refuted): on a new Arena, `Allocate(100)` (standard block at 4096) then
`Allocate(4090)` (dedicated block at 16384): the last entry of the block list is the
dedicated block `[16384, 20474)`, while the free region `[4196, 8192)` still lies in the
first block. -/
theorem free_region_outside_last_block :
    Arena.run ([], Arena.new) [⟨false, 100, 4096⟩, ⟨false, 4090, 16384⟩] =
        some ([⟨4096, 100⟩, ⟨16384, 4090⟩],
          ⟨4196, 3996, [⟨4096, 4096⟩, ⟨16384, 4090⟩], 8202⟩) ∧
      [Block.mk 4096 4096, ⟨16384, 4090⟩].getLast? = some ⟨16384, 4090⟩ ∧
      ¬ (16384 ≤ 4196 ∧ 4196 + 3996 ≤ 16384 + 4090) := by
  decide

/-- C16 (amended): in every state reachable from a new Arena, the free region is empty at
the null cursor as long as no standard block was acquired, and otherwise it is contained in
the standard block most recently acquired by the small-request fallback, a block of the
block list that need not be its last entry. -/
theorem free_region_in_current_block (cs : List Call) (gs : List Grant) (a : Arena)
    (hrun : Arena.run ([], Arena.new) cs = some (gs, a)) :
    (Arena.current none Arena.new cs = none ∧
        a.alloc_ptr_ = 0 ∧ a.alloc_bytes_remaining_ = 0) ∨
      ∃ b, Arena.current none Arena.new cs = some b ∧ b ∈ a.blocks_ ∧
        b.base ≤ a.alloc_ptr_ ∧
        a.alloc_ptr_ + a.alloc_bytes_remaining_ ≤ b.base + b.size := by
  have hT : Tracked (Arena.current none Arena.new cs) a :=
    run_tracked cs none ([], Arena.new) (gs, a) (Or.inl ⟨rfl, rfl, rfl⟩) hrun
  rcases hT with h0 | ⟨b, hc, hmem, hsz, hlo, hhi⟩
  · exact Or.inl h0
  · exact Or.inr ⟨b, hc, hmem, hlo, by omega⟩

theorem free_region_in_current_block_witness :
    (Arena.current none Arena.new
          [⟨false, 2000, 4096⟩, ⟨true, 300, 8192⟩, ⟨false, 5000, 16384⟩, ⟨false, 7, 0⟩] =
          none ∧
        (Arena.mk 8499 3789 [⟨4096, 2000⟩, ⟨8192, 4096⟩, ⟨16384, 5000⟩] 11120).alloc_ptr_ = 0 ∧
        (Arena.mk 8499 3789 [⟨4096, 2000⟩, ⟨8192, 4096⟩, ⟨16384, 5000⟩]
          11120).alloc_bytes_remaining_ = 0) ∨
      ∃ b, Arena.current none Arena.new
          [⟨false, 2000, 4096⟩, ⟨true, 300, 8192⟩, ⟨false, 5000, 16384⟩, ⟨false, 7, 0⟩] =
          some b ∧
        b ∈ (Arena.mk 8499 3789 [⟨4096, 2000⟩, ⟨8192, 4096⟩, ⟨16384, 5000⟩] 11120).blocks_ ∧
        b.base ≤
          (Arena.mk 8499 3789 [⟨4096, 2000⟩, ⟨8192, 4096⟩, ⟨16384, 5000⟩] 11120).alloc_ptr_ ∧
        (Arena.mk 8499 3789 [⟨4096, 2000⟩, ⟨8192, 4096⟩, ⟨16384, 5000⟩] 11120).alloc_ptr_ +
            (Arena.mk 8499 3789 [⟨4096, 2000⟩, ⟨8192, 4096⟩, ⟨16384, 5000⟩]
              11120).alloc_bytes_remaining_ ≤
          b.base + b.size :=
  free_region_in_current_block
    [⟨false, 2000, 4096⟩, ⟨true, 300, 8192⟩, ⟨false, 5000, 16384⟩, ⟨false, 7, 0⟩]
    [⟨4096, 2000⟩, ⟨8192, 300⟩, ⟨16384, 5000⟩, ⟨8492, 7⟩]
    (Arena.mk 8499 3789 [⟨4096, 2000⟩, ⟨8192, 4096⟩, ⟨16384, 5000⟩] 11120) (by decide)

/-- C17: in a reachable state whose blocks all start at multiples of 8, a call of at least
one byte that takes the small-request fallback abandons at most 1024 bytes, a quarter of the
4096-byte standard block. -/
theorem abandoned_bytes_le_quarter_block (a : Arena) (hreach : a.Reachable)
    (halign : ∀ b ∈ a.blocks_, b.base % 8 = 0) (c : Call) (hpos : 1 ≤ c.bytes)
    (hbranch : a.branch c = Branch.standard) :
    a.alloc_bytes_remaining_ ≤ 1024 ∧ 1024 = kBlockSize / 4 := by
  refine ⟨?_, by decide⟩
  obtain ⟨hnf, hsmall⟩ := branch_standard hbranch
  by_cases hal : c.aligned = true
  · have hfit : ¬ sizeAdd c.bytes ((8 - a.alloc_ptr_ % 8) % 8) ≤ a.alloc_bytes_remaining_ :=
      fun h => hnf ((fits_aligned a c hal).mpr h)
    rw [sizeAdd_of_lt (by omega)] at hfit
    rcases reachable_anchored a hreach with ⟨_, h0⟩ | ⟨b, hmem, hsz, hlo, hhi⟩
    · omega
    · have hb := halign b hmem
      omega
  · have hal' : c.aligned = false := by simpa using hal
    have hfit : ¬ c.bytes ≤ a.alloc_bytes_remaining_ :=
      fun h => hnf ((fits_plain a c hal').mpr h)
    omega

theorem abandoned_bytes_le_quarter_block_witness :
    (Arena.mk 7196 996 [⟨4096, 4096⟩] 4104).alloc_bytes_remaining_ ≤ 1024 ∧
      1024 = kBlockSize / 4 :=
  abandoned_bytes_le_quarter_block (Arena.mk 7196 996 [⟨4096, 4096⟩] 4104)
    ⟨[⟨false, 100, 4096⟩, ⟨false, 3000, 0⟩], [⟨4096, 100⟩, ⟨4196, 3000⟩], by decide⟩
    (by decide) ⟨true, 1000, 8192⟩ (by decide) (by decide)

/-- C18 (as stated, refuted): after the one-call sequence `Allocate(2000)` on a new Arena
the request was served by a dedicated block and the cursor is still null, with nothing
remaining. -/
theorem cursor_null_after_large_request :
    Arena.run ([], Arena.new) [⟨false, 2000, 4096⟩] =
        some ([⟨4096, 2000⟩], ⟨0, 0, [⟨4096, 2000⟩], 2008⟩) ∧
      [Call.mk false 2000 4096] ≠ [] ∧
      (∀ c ∈ [Call.mk false 2000 4096], 1 ≤ c.bytes) ∧
      (Arena.mk 0 0 [⟨4096, 2000⟩] 2008).alloc_ptr_ = 0 := by
  decide

/-- C18 (amended): after a sequence of calls of at least one byte each on a new Arena, the
Arena is active, with a non-null cursor that points into or at the end of a block it owns,
as soon as one of the requests is of at most 1024 bytes; while every request so far exceeds
1024 bytes the cursor stays null and the remaining count stays 0. -/
theorem active_after_small_request (cs : List Call) (gs : List Grant) (a : Arena)
    (hrun : Arena.run ([], Arena.new) cs = some (gs, a)) (hpos : ∀ c ∈ cs, 1 ≤ c.bytes) :
    ((∃ c ∈ cs, c.bytes ≤ 1024) →
      a.alloc_ptr_ ≠ 0 ∧
        ∃ b ∈ a.blocks_, b.base ≤ a.alloc_ptr_ ∧ a.alloc_ptr_ ≤ b.base + b.size) ∧
    ((∀ c ∈ cs, 1024 < c.bytes) → a.alloc_ptr_ = 0 ∧ a.alloc_bytes_remaining_ = 0) := by
  have h := run_dormant cs ([], Arena.new) (gs, a) ⟨rfl, rfl⟩ hpos hrun
  constructor
  · intro hex
    have hA : Active a := h.1 hex
    obtain ⟨hnz, b, hmem, hsz, hlo, hhi⟩ := hA
    exact ⟨hnz, b, hmem, hlo, by
      show a.alloc_ptr_ ≤ b.base + b.size
      omega⟩
  · intro hall
    exact h.2 hall

theorem active_after_small_request_witness :
    ((Arena.mk 8499 3789 [⟨4096, 2000⟩, ⟨8192, 4096⟩, ⟨16384, 5000⟩] 11120).alloc_ptr_ ≠ 0 ∧
        ∃ b ∈ (Arena.mk 8499 3789 [⟨4096, 2000⟩, ⟨8192, 4096⟩, ⟨16384, 5000⟩] 11120).blocks_,
          b.base ≤
              (Arena.mk 8499 3789 [⟨4096, 2000⟩, ⟨8192, 4096⟩, ⟨16384, 5000⟩]
                11120).alloc_ptr_ ∧
            (Arena.mk 8499 3789 [⟨4096, 2000⟩, ⟨8192, 4096⟩, ⟨16384, 5000⟩]
                11120).alloc_ptr_ ≤ b.base + b.size) ∧
      ((Arena.mk 0 0 [⟨4096, 2000⟩, ⟨8192, 3000⟩] 5016).alloc_ptr_ = 0 ∧
        (Arena.mk 0 0 [⟨4096, 2000⟩, ⟨8192, 3000⟩] 5016).alloc_bytes_remaining_ = 0) :=
  ⟨(active_after_small_request
      [⟨false, 2000, 4096⟩, ⟨true, 300, 8192⟩, ⟨false, 5000, 16384⟩, ⟨false, 7, 0⟩]
      [⟨4096, 2000⟩, ⟨8192, 300⟩, ⟨16384, 5000⟩, ⟨8492, 7⟩]
      (Arena.mk 8499 3789 [⟨4096, 2000⟩, ⟨8192, 4096⟩, ⟨16384, 5000⟩] 11120)
      (by decide) (by decide)).1 ⟨⟨true, 300, 8192⟩, by decide, by decide⟩,
    (active_after_small_request [⟨false, 2000, 4096⟩, ⟨true, 3000, 8192⟩]
      [⟨4096, 2000⟩, ⟨8192, 3000⟩] (Arena.mk 0 0 [⟨4096, 2000⟩, ⟨8192, 3000⟩] 5016)
      (by decide) (by decide)).2 (by decide)⟩

/-- C20: in every state reachable from a new Arena the remaining count is at most 4096, and
either the cursor is null with nothing remaining or `cursor + remaining = base + 4096` for
the standard block most recently acquired by the small-request fallback; so every
subtraction from the remaining count in `Allocate`, `AllocateAligned` and `AllocateFallback`
takes away at most the current value and is exact in `size_t`. -/
theorem remaining_anchored_to_current_block (cs : List Call) (gs : List Grant) (a : Arena)
    (hrun : Arena.run ([], Arena.new) cs = some (gs, a)) :
    a.alloc_bytes_remaining_ ≤ 4096 ∧
      ((a.alloc_ptr_ = 0 ∧ a.alloc_bytes_remaining_ = 0) ∨
        ∃ b, Arena.current none Arena.new cs = some b ∧ b ∈ a.blocks_ ∧ b.size = 4096 ∧
          a.alloc_ptr_ + a.alloc_bytes_remaining_ = b.base + 4096) ∧
      ∀ c m n, a.subtraction c = some (m, n) → n ≤ m ∧ sizeSub m n + n = m := by
  have hT : Tracked (Arena.current none Arena.new cs) a :=
    run_tracked cs none ([], Arena.new) (gs, a) (Or.inl ⟨rfl, rfl, rfl⟩) hrun
  have hrem := tracked_rem_le hT
  refine ⟨hrem, ?_, fun c m n h => subtraction_exact a c m n hrem h⟩
  rcases hT with ⟨_, hp0, hr0⟩ | ⟨b, hc, hmem, hsz, _, hhi⟩
  · exact Or.inl ⟨hp0, hr0⟩
  · exact Or.inr ⟨b, hc, hmem, hsz, hhi⟩

theorem remaining_anchored_to_current_block_witness :
    (Arena.mk 8499 3789 [⟨4096, 2000⟩, ⟨8192, 4096⟩, ⟨16384, 5000⟩]
        11120).alloc_bytes_remaining_ ≤ 4096 ∧
      Arena.current none Arena.new
          [⟨false, 2000, 4096⟩, ⟨true, 300, 8192⟩, ⟨false, 5000, 16384⟩, ⟨false, 7, 0⟩] =
        some ⟨8192, 4096⟩ ∧
      (105 ≤ 3789 ∧ sizeSub 3789 105 + 105 = 3789) :=
  ⟨(remaining_anchored_to_current_block
      [⟨false, 2000, 4096⟩, ⟨true, 300, 8192⟩, ⟨false, 5000, 16384⟩, ⟨false, 7, 0⟩]
      [⟨4096, 2000⟩, ⟨8192, 300⟩, ⟨16384, 5000⟩, ⟨8492, 7⟩]
      (Arena.mk 8499 3789 [⟨4096, 2000⟩, ⟨8192, 4096⟩, ⟨16384, 5000⟩] 11120)
      (by decide)).1,
    by decide,
    (remaining_anchored_to_current_block
      [⟨false, 2000, 4096⟩, ⟨true, 300, 8192⟩, ⟨false, 5000, 16384⟩, ⟨false, 7, 0⟩]
      [⟨4096, 2000⟩, ⟨8192, 300⟩, ⟨16384, 5000⟩, ⟨8492, 7⟩]
      (Arena.mk 8499 3789 [⟨4096, 2000⟩, ⟨8192, 4096⟩, ⟨16384, 5000⟩] 11120)
      (by decide)).2.2 ⟨true, 100, 0⟩ 3789 105 (by decide)⟩

end leveldb
